import Mathlib

/-!
# Verification of the claw-voice concurrent utterance pipeline

Shallow embedding of the core data structures and operations of the
claw-voice Discord voice assistant (source: `src/index.js`, `src/brain.js`,
`src/wakeword.js`, `src/alert-queue.js`, the alert webhook served next to
`src/stt.js`), together with proofs and refutations of the specification
claims.

Strings are modelled as `List Char`; the JavaScript string primitives used
by the source (`trim`, `split`, `startsWith`, `includes`, and global
regex replacement for the specific patterns appearing in the source) are
embedded as executable functions on `List Char`.  JS `Array.prototype.sort`
is stable, so it is modelled by stable insertion sort.

The file is organised as: all definitions first, then all theorems.
-/

namespace ClawVoice

/-! ## Shared string utilities -/

/-- The JavaScript `\s` / `String.trim` whitespace class (ASCII part plus
the Unicode space characters JS includes). -/
def jsWs (c : Char) : Bool :=
  c.toNat = 32 || c.toNat = 9 || c.toNat = 10 || c.toNat = 13 || c.toNat = 11 ||
  c.toNat = 12 || c.toNat = 0xA0 || c.toNat = 0x1680 ||
  (0x2000 ≤ c.toNat && c.toNat ≤ 0x200A) ||
  c.toNat = 0x2028 || c.toNat = 0x2029 || c.toNat = 0x202F || c.toNat = 0x205F ||
  c.toNat = 0x3000 || c.toNat = 0xFEFF

/-- JS `String.prototype.trimStart`. -/
def jsTrimStart (l : List Char) : List Char := l.dropWhile jsWs

/-- JS `String.prototype.trimEnd`. -/
def jsTrimEnd (l : List Char) : List Char := (l.reverse.dropWhile jsWs).reverse

/-- JS `String.prototype.trim`. -/
def jsTrim (l : List Char) : List Char := jsTrimEnd (jsTrimStart l)

/-- ASCII lower-casing; the effect of matching an all-lower-case pattern
under the regex `i` flag (all patterns in the source are ASCII). -/
def lowerChars (l : List Char) : List Char := l.map Char.toLower

/-- The apostrophe character, used by several source patterns. -/
def apos : Char := Char.ofNat 39

/-- Characters of plain spoken text: ASCII letters, the space, and
sentence punctuation.  None of them can start a match of any of the
eleven `trimForVoice` replacement patterns except the whitespace
collapse. -/
def simpleVoiceChar (c : Char) : Bool :=
  (97 ≤ c.toNat && c.toNat ≤ 122) || (65 ≤ c.toNat && c.toNat ≤ 90) ||
  c.toNat = 32 || c.toNat = 46 || c.toNat = 44 || c.toNat = 33 || c.toNat = 63 ||
  c.toNat = 59 || c.toNat = 58

/-- Adjacent-character relation: not both whitespace (the result shape of
the whitespace-collapse pass). -/
def noWsPair (a b : Char) : Prop := ¬(jsWs a = true ∧ jsWs b = true)

/-! ## C2 — interrupt/stop command detection (`src/index.js` lines 69-78)

    const INTERRUPT_PATTERNS = [
      /^(jarvis\s*[,.]?\s*)?(stop|cancel|abort|shut up|be quiet|enough|nevermind|never mind|hold on|wait)\.?$/i,
      /^(jarvis\s*[,.]?\s*)?(stop|cancel)\s+(that|it|talking|speaking|please|now)\.?$/i,
      /^(jarvis\s*[,.]?\s*)?that's\s+(enough|ok|okay|fine)\.?$/i,
    ];
    function isInterruptCommand(transcript) {
      const clean = transcript.trim().replace(/[.,!?;:]+$/g, '');
      return INTERRUPT_PATTERNS.some(p => p.test(clean));
    }

The three anchored regexes are compiled to a deterministic matcher;
because every alternative of every group starts with a letter while the
separators consume only whitespace / `,` / `.`, the greedy strategy is
equivalent to the backtracking regex semantics (proved below against a
declarative decomposition). -/

/-- Trailing-punctuation class of the `replace(/[.,!?;:]+$/g, '')` pass. -/
def trailPunct (c : Char) : Bool :=
  c = '.' || c = ',' || c = '!' || c = '?' || c = ';' || c = ':'

/-- The `transcript.trim().replace(/[.,!?;:]+$/g, '')` cleaning pass. -/
def cleanTranscript (l : List Char) : List Char :=
  ((jsTrim l).reverse.dropWhile trailPunct).reverse

/-- Alternatives of the first interrupt pattern group. -/
def lits1 : List (List Char) :=
  ["stop".data, "cancel".data, "abort".data, "shut up".data, "be quiet".data,
   "enough".data, "nevermind".data, "never mind".data, "hold on".data, "wait".data]

/-- First group of the second interrupt pattern. -/
def lits2a : List (List Char) := ["stop".data, "cancel".data]

/-- Second group of the second interrupt pattern. -/
def lits2b : List (List Char) :=
  ["that".data, "it".data, "talking".data, "speaking".data, "please".data, "now".data]

/-- The literal `that's` from the third interrupt pattern. -/
def thatsLit : List Char := ['t', 'h', 'a', 't', apos, 's']

/-- Alternatives of the third interrupt pattern group. -/
def lits3 : List (List Char) := ["enough".data, "ok".data, "okay".data, "fine".data]

/-- The wake word literal `jarvis` of the optional leading group. -/
def jarvisLit : List Char := "jarvis".data

/-- Strip a literal off the front of `l`, or fail. -/
def stripLit (w l : List Char) : Option (List Char) :=
  if l.take w.length = w then some (l.drop w.length) else none

/-- The optional trailing `\.?` (anchored at end of string). -/
def optDot (r : List Char) : Bool := r = [] || r = ['.']

/-- Consume `\s+` (at least one whitespace character, then greedily all). -/
def wsPlus (l : List Char) : Option (List Char) :=
  match l with
  | c :: r => if jsWs c then some (r.dropWhile jsWs) else none
  | [] => none

/-- Matcher for the first pattern body `(stop|cancel|…|wait)\.?$`. -/
def body1 (l : List Char) : Bool :=
  lits1.any fun w =>
    match stripLit w l with
    | some r => optDot r
    | none => false

/-- Matcher for the second pattern body `(stop|cancel)\s+(that|…|now)\.?$`. -/
def body2 (l : List Char) : Bool :=
  lits2a.any fun w1 =>
    match stripLit w1 l with
    | some r =>
      match wsPlus r with
      | some r2 =>
        lits2b.any fun w2 =>
          match stripLit w2 r2 with
          | some r3 => optDot r3
          | none => false
      | none => false
    | none => false

/-- Matcher for the third pattern body `that's\s+(enough|ok|okay|fine)\.?$`. -/
def body3 (l : List Char) : Bool :=
  match stripLit thatsLit l with
  | some r =>
    match wsPlus r with
    | some r2 =>
      lits3.any fun w =>
        match stripLit w r2 with
        | some r3 => optDot r3
        | none => false
    | none => false
  | none => false

/-- Any of the three pattern bodies. -/
def bodyAny (l : List Char) : Bool := body1 l || body2 l || body3 l

/-- Consume the optional leading group `jarvis\s*[,.]?\s*`. -/
def stripWakeLead (l : List Char) : Option (List Char) :=
  match stripLit jarvisLit l with
  | some r =>
    let r1 := r.dropWhile jsWs
    let r2 := match r1 with
      | c :: t => if c = ',' || c = '.' then t else r1
      | [] => r1
    some (r2.dropWhile jsWs)
  | none => none

/-- Whole-string match of the three interrupt patterns (on an already
lower-cased, cleaned transcript). -/
def interruptMatch (l : List Char) : Bool :=
  bodyAny l ||
    (match stripWakeLead l with
     | some r => bodyAny r
     | none => false)

/-- Embedding of `isInterruptCommand` (`src/index.js` lines 75-78); the
`i` regex flag is modelled by lower-casing the cleaned transcript. -/
def isInterruptCommand (t : String) : Bool :=
  interruptMatch (lowerChars (cleanTranscript t.data))

/-- Whitespace-only character list. -/
def AllWs (u : List Char) : Prop := ∀ c ∈ u, jsWs c = true

/-- Declarative reading of the pattern bodies: the cleaned transcript is
exactly one of the alternatives, with `\s+` an arbitrary nonempty
whitespace run and an optional trailing period. -/
def BodyMatch (r : List Char) : Prop :=
  (∃ w ∈ lits1, r = w ∨ r = w ++ ['.']) ∨
  (∃ w1 ∈ lits2a, ∃ u, ∃ w2 ∈ lits2b,
      u ≠ [] ∧ AllWs u ∧ (r = w1 ++ u ++ w2 ∨ r = w1 ++ u ++ w2 ++ ['.'])) ∨
  (∃ u, ∃ w ∈ lits3,
      u ≠ [] ∧ AllWs u ∧ (r = thatsLit ++ u ++ w ∨ r = thatsLit ++ u ++ w ++ ['.']))

/-- Declarative reading of the whole-string interrupt match: a pattern
body, optionally preceded by the wake word group `jarvis\s*[,.]?\s*`. -/
def InterruptDeclarative (l : List Char) : Prop :=
  BodyMatch l ∨
    ∃ u p v r, AllWs u ∧ (p = [] ∨ p = [','] ∨ p = ['.']) ∧ AllWs v ∧
      BodyMatch r ∧ l = jarvisLit ++ u ++ p ++ v ++ r

/-- Word counter (state: whether the previous character was whitespace /
start of string); counts maximal non-whitespace runs. -/
def countWordsAux : Bool → List Char → Nat
  | _, [] => 0
  | afterWs, c :: r =>
    if jsWs c then countWordsAux true r
    else (if afterWs then 1 else 0) + countWordsAux false r

/-- Number of whitespace-separated words of `l`. -/
def countWords (l : List Char) : Nat := countWordsAux true l

/-! ## C6 — per-speaker conversation history cap

At both history mutation sites (`src/index.js` lines 548-549 for the
`user` entry in `handleSpeech`, lines 596-597 for the `assistant` entry in
`processBrainTask`) the source runs

    conv.history.push(entry);
    while (conv.history.length > 40) conv.history.shift();
-/

/-- A `{role, content}` conversation entry. -/
structure HistEntry where
  role : String
  content : String
deriving DecidableEq, Repr

/-- One pass of the `while (h.length > 40) h.shift()` loop, with explicit
fuel (the loop runs at most `length` times). -/
def trimHistGo : Nat → List HistEntry → List HistEntry
  | 0, l => l
  | n + 1, l => if l.length > 40 then trimHistGo n l.tail else l

/-- The `while (h.length > 40) h.shift()` loop from `src/index.js`. -/
def trimHistLoop (l : List HistEntry) : List HistEntry := trimHistGo l.length l

/-- Push one entry onto a conversation history, then cap at 40 entries
evicting from the front (`src/index.js` lines 548-549 and 596-597). -/
def pushHistoryCapped (l : List HistEntry) (e : HistEntry) : List HistEntry :=
  trimHistLoop (l ++ [e])

/-! ## Shared — `trimForVoice` (`src/brain.js` lines 353-369)

    function trimForVoice(text) {
      let clean = text
        .replace(/\*\*([^*]+)\*\*/g, '$1')      // bold
        .replace(/\*([^*]+)\*/g, '$1')           // italic
        .replace(/#{1,6}\s+/g, '')               // headers
        .replace(/```[\s\S]*?```/g, '')          // code blocks
        .replace(/`([^`]+)`/g, '$1')             // inline code
        .replace(/^[-*+]\s+/gm, '')              // bullets
        .replace(/^\d+\.\s+/gm, '')              // numbered lists
        .replace(/\[([^\]]+)\]\([^)]+\)/g, '$1') // links
        .replace(/\n{2,}/g, '. ')               // double newlines to periods
        .replace(/\n/g, ' ')                     // single newlines to spaces
        .replace(/\s{2,}/g, ' ')                // collapse spaces
        .trim();
      return clean;
    }

Each global replacement is a single left-to-right scan: at every position
the engine either matches (consuming at least one character, emitting the
replacement) or copies one character.  Every one of these patterns is
deterministic (no alternative benefits from backtracking), so a greedy
scanner is a faithful embedding.  The scanner carries the multiline
line-start flag needed by the two `m`-flagged patterns. -/

/-- JS regex line terminators (what `^` in multiline mode anchors after). -/
def lineTerm (c : Char) : Bool :=
  c = '\n' || c = '\r' || c.val = 0x2028 || c.val = 0x2029

/-- Generic left-to-right global-replace scan.  `try` receives the
line-start flag and the remaining input; on success it yields the
replacement text and the number of characters consumed (always ≥ 1 for
the matchers below).  `fuel ≥ length` suffices for a full scan. -/
def replaceScan (tr : Bool → List Char → Option (List Char × Nat)) :
    Nat → Bool → List Char → List Char
  | 0, _, l => l
  | _ + 1, _, [] => []
  | fuel + 1, ls, c :: rest =>
    match tr ls (c :: rest) with
    | some (rep, n) =>
      rep ++ replaceScan tr fuel (lineTerm ((c :: rest).getD (n - 1) ' ')) ((c :: rest).drop n)
    | none => c :: replaceScan tr fuel (lineTerm c) rest

/-- Run one global-replace pass over the whole input. -/
def runScan (tr : Bool → List Char → Option (List Char × Nat)) (l : List Char) : List Char :=
  replaceScan tr l.length true l

/-- Matcher for `\*\*([^*]+)\*\*` replaced by the group. -/
def matchBold (l : List Char) : Option (List Char × Nat) :=
  if l.take 2 = ['*', '*'] then
    let content := (l.drop 2).takeWhile (· ≠ '*')
    if content.isEmpty then none
    else if (l.drop (2 + content.length)).take 2 = ['*', '*'] then
      some (content, 2 + content.length + 2)
    else none
  else none

/-- Matcher for `\*([^*]+)\*` replaced by the group. -/
def matchItalic (l : List Char) : Option (List Char × Nat) :=
  if l.take 1 = ['*'] then
    let content := (l.drop 1).takeWhile (· ≠ '*')
    if content.isEmpty then none
    else if (l.drop (1 + content.length)).take 1 = ['*'] then
      some (content, 1 + content.length + 1)
    else none
  else none

/-- Matcher for `#{1,6}\s+` removed.  (At a position with more than six
hashes before the whitespace no match starts — a later position inside
the run matches instead, which the scan finds by advancing.) -/
def matchHeader (l : List Char) : Option (List Char × Nat) :=
  let hashes := l.takeWhile (· = '#')
  if 1 ≤ hashes.length ∧ hashes.length ≤ 6 then
    let ws := (l.drop hashes.length).takeWhile jsWs
    if ws.isEmpty then none else some ([], hashes.length + ws.length)
  else none

/-- Find the distance to the first occurrence of three consecutive
backticks. -/
def findTicks : List Char → Option Nat
  | [] => none
  | c :: rest =>
    if (c :: rest).take 3 = ['`', '`', '`'] then some 0
    else (findTicks rest).map (· + 1)

/-- Matcher for the lazy ` ```[\s\S]*?``` ` removed. -/
def matchCodeBlock (l : List Char) : Option (List Char × Nat) :=
  if l.take 3 = ['`', '`', '`'] then
    match findTicks (l.drop 3) with
    | some i => some ([], 3 + i + 3)
    | none => none
  else none

/-- Matcher for `` `([^`]+)` `` replaced by the group. -/
def matchInlineCode (l : List Char) : Option (List Char × Nat) :=
  if l.take 1 = ['`'] then
    let content := (l.drop 1).takeWhile (· ≠ '`')
    if content.isEmpty then none
    else if (l.drop (1 + content.length)).take 1 = ['`'] then
      some (content, 1 + content.length + 1)
    else none
  else none

/-- Matcher for `^[-*+]\s+` (multiline) removed. -/
def matchBullet (ls : Bool) (l : List Char) : Option (List Char × Nat) :=
  if ls then
    match l with
    | c :: rest =>
      if c = '-' || c = '*' || c = '+' then
        let ws := rest.takeWhile jsWs
        if ws.isEmpty then none else some ([], 1 + ws.length)
      else none
    | [] => none
  else none

/-- Decimal digit test. -/
def isDigit (c : Char) : Bool := 48 ≤ c.toNat && c.toNat ≤ 57

/-- Matcher for `^\d+\.\s+` (multiline) removed. -/
def matchNumbered (ls : Bool) (l : List Char) : Option (List Char × Nat) :=
  if ls then
    let digits := l.takeWhile isDigit
    if digits.isEmpty then none
    else if (l.drop digits.length).take 1 = ['.'] then
      let ws := (l.drop (digits.length + 1)).takeWhile jsWs
      if ws.isEmpty then none else some ([], digits.length + 1 + ws.length)
    else none
  else none

/-- Matcher for `\[([^\]]+)\]\([^)]+\)` replaced by the link text. -/
def matchLink (l : List Char) : Option (List Char × Nat) :=
  if l.take 1 = ['['] then
    let txt := (l.drop 1).takeWhile (· ≠ ']')
    if txt.isEmpty then none
    else
      let afterTxt := l.drop (1 + txt.length)
      if afterTxt.take 2 = [']', '('] then
        let url := (afterTxt.drop 2).takeWhile (· ≠ ')')
        if url.isEmpty then none
        else if (afterTxt.drop (2 + url.length)).take 1 = [')'] then
          some (txt, 1 + txt.length + 2 + url.length + 1)
        else none
      else none
  else none

/-- Matcher for `\n{2,}` replaced by `. `. -/
def matchMultiNewline (l : List Char) : Option (List Char × Nat) :=
  let nls := l.takeWhile (· = '\n')
  if 2 ≤ nls.length then some (['.', ' '], nls.length) else none

/-- Matcher for `\n` replaced by a space. -/
def matchNewline (l : List Char) : Option (List Char × Nat) :=
  if l.take 1 = ['\n'] then some ([' '], 1) else none

/-- Matcher for `\s{2,}` replaced by a single space. -/
def matchMultiWs (l : List Char) : Option (List Char × Nat) :=
  let ws := l.takeWhile jsWs
  if 2 ≤ ws.length then some ([' '], ws.length) else none

/-- Embedding of `trimForVoice` (`src/brain.js` lines 353-369), as the
chain of eleven global replacements followed by `trim`. -/
def trimForVoice (l : List Char) : List Char :=
  jsTrim
    (runScan (fun _ => matchMultiWs)
      (runScan (fun _ => matchNewline)
        (runScan (fun _ => matchMultiNewline)
          (runScan (fun _ => matchLink)
            (runScan matchNumbered
              (runScan matchBullet
                (runScan (fun _ => matchInlineCode)
                  (runScan (fun _ => matchCodeBlock)
                    (runScan (fun _ => matchHeader)
                      (runScan (fun _ => matchItalic)
                        (runScan (fun _ => matchBold) l)))))))))))

/-! ## C5 — streaming sentence splitter (`src/brain.js` lines 427-486)

    const SENTENCE_BOUNDARY = /([.!?])\s+(?=[A-Z])/;
    const MIN_SENTENCE_LENGTH = 20;
    ...
    let match;
    while ((match = SENTENCE_BOUNDARY.exec(sentenceBuffer)) !== null) {
      const sentenceEnd = match.index + match[1].length;
      const sentence = sentenceBuffer.slice(0, sentenceEnd).trim();
      sentenceBuffer = sentenceBuffer.slice(sentenceEnd).trimStart();
      if (sentence.length >= MIN_SENTENCE_LENGTH) {
        const cleanSentence = trimForVoice(sentence);
        if (cleanSentence) await onSentence(cleanSentence);
      } else {
        sentenceBuffer = sentence + ' ' + sentenceBuffer;
      }
    }
    ...
    if (sentenceBuffer.trim().length > 0) {
      const cleanRemaining = trimForVoice(sentenceBuffer.trim());
      if (cleanRemaining) await onSentence(cleanRemaining);
    }

The too-short branch prepends the candidate back onto the buffer, after
which `exec` (the regex is not global, so it always searches from the
start) finds the same boundary again; the loop is modelled with explicit
fuel. -/

/-- Sentence-terminating punctuation of `SENTENCE_BOUNDARY`. -/
def sbPunct (c : Char) : Bool := c = '.' || c = '!' || c = '?'

/-- Upper-case ASCII letter (the `[A-Z]` lookahead). -/
def isUpper (c : Char) : Bool := 65 ≤ c.toNat && c.toNat ≤ 90

/-- Does a `SENTENCE_BOUNDARY` match start at the head of `l`: punctuation,
then at least one whitespace character, then (lookahead) an upper-case
letter. -/
def boundaryHead (l : List Char) : Bool :=
  match l with
  | c :: r =>
    sbPunct c &&
      (let w := r.takeWhile jsWs
       !w.isEmpty &&
         match r.drop w.length with
         | u :: _ => isUpper u
         | [] => false)
  | [] => false

/-- Index of the punctuation character of the first `SENTENCE_BOUNDARY`
match (`match.index`), if any. -/
def findBoundary : List Char → Option Nat
  | [] => none
  | c :: r =>
    if boundaryHead (c :: r) then some 0 else (findBoundary r).map (· + 1)

/-- Declarative reading of a `SENTENCE_BOUNDARY` match at the head of a
buffer: terminal punctuation, a nonempty whitespace run, then an
upper-case letter. -/
def BoundaryDecomp (x : List Char) : Prop :=
  ∃ c u d t, x = c :: (u ++ d :: t) ∧ sbPunct c = true ∧ u ≠ [] ∧
    (∀ w ∈ u, jsWs w = true) ∧ isUpper d = true

/-- Result of one iteration of the sentence-extraction `while` loop. -/
inductive SbStep where
  | emitted (sentence : List Char) (rest : List Char)
  | skipped (rest : List Char)
  | tooShort (newBuffer : List Char)
  | noBoundary
deriving DecidableEq, Repr

/-- One iteration of the sentence-extraction loop body. -/
def sbStep (buf : List Char) : SbStep :=
  match findBoundary buf with
  | none => .noBoundary
  | some i =>
    let sentence := jsTrim (buf.take (i + 1))
    let rest := jsTrimStart (buf.drop (i + 1))
    if 20 ≤ sentence.length then
      let clean := trimForVoice sentence
      if clean.isEmpty then .skipped rest else .emitted clean rest
    else
      .tooShort (sentence ++ ' ' :: rest)

/-- The sentence-extraction `while` loop, with fuel (the source loop does
not terminate on a too-short candidate; fuel exhaustion models the cut). -/
def sbLoop : Nat → List Char → List (List Char) × List Char
  | 0, buf => ([], buf)
  | fuel + 1, buf =>
    match sbStep buf with
    | .noBoundary => ([], buf)
    | .emitted s rest =>
      let (es, b) := sbLoop fuel rest
      (s :: es, b)
    | .skipped rest => sbLoop fuel rest
    | .tooShort nb => sbLoop fuel nb

/-- Feed the stream of `delta.content` tokens through the buffer and the
extraction loop; returns (emitted sentences, final buffer). -/
def processTokens : List (List Char) → List Char → Nat → List (List Char) × List Char
  | [], buf, _ => ([], buf)
  | t :: ts, buf, fuel =>
    let (es, b) := sbLoop fuel (buf ++ t)
    let (es2, b2) := processTokens ts b fuel
    (es ++ es2, b2)

/-- End-of-stream flush of the remaining buffer. -/
def flushEmit (buf : List Char) : List (List Char) :=
  if (jsTrim buf).isEmpty then []
  else
    let c := trimForVoice (jsTrim buf)
    if c.isEmpty then [] else [c]

/-- All sentences emitted by `generateResponseStreaming` for a given token
stream: the in-loop emissions followed by the end-of-stream flush. -/
def streamingEmits (tokens : List (List Char)) (fuel : Nat) : List (List Char) :=
  let (es, b) := processTokens tokens [] fuel
  es ++ flushEmit b

/-- Modelled from the spec (the claim under examination): a sentence
boundary is the first `.`/`!`/`?` followed by whitespace or end of buffer;
the prefix through the punctuation is cleaned and emitted when its cleaned
length is at least 2, shorter candidates coalesce with the next fragment,
and at end of stream the remaining buffer is flushed as one sentence. -/
def boundaryHeadClaim (l : List Char) : Bool :=
  match l with
  | c :: r =>
    sbPunct c &&
      (match r with
       | [] => true
       | d :: _ => jsWs d)
  | [] => false

/-- Modelled from the spec: index of the first claimed boundary. -/
def findBoundaryClaim : List Char → Option Nat
  | [] => none
  | c :: r =>
    if boundaryHeadClaim (c :: r) then some 0 else (findBoundaryClaim r).map (· + 1)

/-- Modelled from the spec: the claimed extraction loop. -/
def claimLoop : Nat → List Char → List (List Char) × List Char
  | 0, buf => ([], buf)
  | fuel + 1, buf =>
    match findBoundaryClaim buf with
    | none => ([], buf)
    | some i =>
      let cleaned := trimForVoice (buf.take (i + 1))
      if 2 ≤ cleaned.length then
        let (es, b) := claimLoop fuel (buf.drop (i + 1))
        (cleaned :: es, b)
      else
        ([], buf)

/-- Modelled from the spec: all sentences the claim says the splitter
emits for a token stream (boundary emissions, then a final flush of the
cleaned remaining buffer). -/
def claimEmits (tokens : List (List Char)) (fuel : Nat) : List (List Char) :=
  let go := claimLoop fuel (tokens.foldl (· ++ ·) [])
  go.1 ++ flushEmit go.2

/-! ## C1 — task cancellation (`src/index.js` lines 671-681)

    function cancelAllTasks() {
      const count = activeTasks.size;
      for (const [taskId, task] of activeTasks) {
        task.controller.abort();
      }
      activeTasks.clear();
      audioQueue.clear();
      isSpeaking = false;
      console.log(`Cancelled ${count} active tasks, cleared all queues`);
    }

together with `AudioQueue.clear` (`src/index.js` lines 102-108).  Note the
source function has no `return` statement: its value is `undefined`,
modelled as `none`. -/

/-- Mutable session state touched by `cancelAllTasks`: the active-tasks
map (task id, abort-controller id), the set of controllers whose `abort()`
has fired, and the playback queue with its flags. -/
structure SessionState where
  activeTasks : List (Nat × Nat)
  abortedControllers : List Nat
  queue : List Nat
  playing : Bool
  speaking : Bool
deriving DecidableEq, Repr

/-- Embedding of `AudioQueue.clear()`: drop all queued segments; stop the
player and reset the flag (when not playing the flag is already false, so
unconditionally clearing it is the same). -/
def audioQueueClear (s : SessionState) : SessionState :=
  { s with queue := [], playing := false }

/-- Embedding of `cancelAllTasks()`: abort every live controller, clear
the map, clear the audio queue, reset `isSpeaking`; the JS function
returns `undefined` (`none`), the count is only logged. -/
def cancelAllTasks (s : SessionState) : SessionState × Option Nat :=
  let s1 := { s with
    abortedControllers := s.abortedControllers ++ s.activeTasks.map Prod.snd,
    activeTasks := [] }
  let s2 := audioQueueClear s1
  ({ s2 with speaking := false }, none)

/-- Embedding of `activeCount` (the `activeTasks.size` reads). -/
def activeCount (s : SessionState) : Nat := s.activeTasks.length

/-! ## C3 — brain task result handling

`processBrainTask` (`src/index.js` lines 576-628) consumes the result of
`generateResponse`; the brain client (`src/brain.js`, `catch` block at
lines 269-288) converts transport failures into fallback result *texts*
rather than exceptions, so `processBrainTask` treats them as ordinary
responses. -/

/-- Result value of `generateResponse` as consumed by `processBrainTask`:
the text plus the aborted flag. -/
structure BrainResult where
  text : String
  aborted : Bool
deriving DecidableEq, Repr

/-- Outcome of the gateway HTTP exchange inside `generateResponse`. -/
inductive GatewayOutcome where
  | ok (content : Option String)
  | httpError (status : Nat)
  | abortTimeout
  | networkError
deriving DecidableEq, Repr

/-- The fallback text of the generic `catch` branch. -/
def connectFallback : String :=
  "I" ++ String.mk [apos] ++ "m having trouble connecting right now. Try again?"

/-- The fallback text of the `AbortError` branch (`src/brain.js` 270-279). -/
def tooLongFallback : String :=
  "That" ++ String.mk [apos] ++ "s taking too long. Let me try a different approach."

/-- Embedding of the result mapping of `generateResponse`
(`src/brain.js`, success path line 256-267 and `catch` block lines
269-288): a 2xx answer yields the (voice-trimmed) content or a default,
and every failure yields a fallback *text* with no aborted flag. -/
def generateResponseResult (g : GatewayOutcome) : BrainResult :=
  match g with
  | .ok content =>
    { text := String.mk (trimForVoice (content.getD ("Trouble thinking. Try again?")).data),
      aborted := false }
  | .httpError _ => { text := connectFallback, aborted := false }
  | .abortTimeout => { text := tooLongFallback, aborted := false }
  | .networkError => { text := connectFallback, aborted := false }

/-- State touched by `processBrainTask`: this speaker's conversation
(`none` when `conversations.get(userId)` is undefined) and the active
task-id list. -/
structure TaskState where
  conv : Option (List HistEntry)
  tasks : List Nat
deriving DecidableEq, Repr

/-- Embedding of the history- and task-map-relevant part of
`processBrainTask` (`src/index.js` lines 576-628).  `result = none` is the
`catch` path (the worker threw): the task is deleted and history is
untouched.  Otherwise: an aborted result deletes the task and returns;
a completed result appends one capped `assistant` entry (when the
conversation exists) and deletes the task.  The speak/handoff tail of the
function does not touch history or the task map. -/
def processBrainTask (taskId : Nat) (result : Option BrainResult) (st : TaskState) :
    TaskState :=
  match result with
  | none => { st with tasks := st.tasks.erase taskId }
  | some r =>
    if r.aborted then
      { st with tasks := st.tasks.erase taskId }
    else
      let st1 :=
        match st.conv with
        | some h => { st with conv := some (pushHistoryCapped h ⟨"assistant", r.text⟩) }
        | none => st
      { st1 with tasks := st1.tasks.erase taskId }

/-! ## C4 — wake word gate (`src/wakeword.js` lines 25-64) -/

/-- Default `WAKE_WORD_PHRASES` (env unset). -/
def wakePhrasesDefault : List (List Char) :=
  ["jarvis".data, "hey jarvis".data, "hey travis".data, "yo jarvis".data]

/-- JS `a.includes(b)`: `b` occurs as a contiguous substring of `a`. -/
def containsSub : List Char → List Char → Bool
  | h, n => n.isPrefixOf h ||
      match h with
      | [] => false
      | _ :: t => containsSub t n

/-- JS `a.indexOf(b)`: index of the first substring occurrence. -/
def indexOfSub : List Char → List Char → Option Nat
  | h, n =>
    if n.isPrefixOf h then some 0
    else
      match h with
      | [] => none
      | _ :: t => (indexOfSub t n).map (· + 1)

/-- JS `lower.split(' ').slice(0, 5).join(' ')`: the string made of the
first five space-separated fields. -/
def firstFiveWords (l : List Char) : List Char :=
  List.intercalate [' '] ((l.splitOn ' ').take 5)

/-- Per-phrase loop body of `checkWakeWord`: anchored match first, then
the flexible first-five-words match; first phrase wins.  Returns
`(detected, cleanedTranscript)`. -/
def checkWakeGo (transcript lower : List Char) : List (List Char) → Bool × List Char
  | [] => (false, transcript)
  | p :: rest =>
    if p.isPrefixOf lower then (true, jsTrim (transcript.drop p.length))
    else if containsSub (firstFiveWords lower) p then
      let idx := (indexOfSub lower p).getD 0
      (true, jsTrim (transcript.drop (idx + p.length)))
    else checkWakeGo transcript lower rest

/-- Embedding of `checkWakeWord` (`src/wakeword.js` lines 25-64),
parametrised by the configuration and the conversation-window state:
`enabled` is `WAKE_WORD_ENABLED`, `userPresent` is the truthiness of
`userId`, `lastResponseAt` is `lastBotResponseTime.get(userId)`. -/
def checkWakeWord (enabled : Bool) (phrases : List (List Char)) (userPresent : Bool)
    (lastResponseAt : Option Int) (now windowMs : Int) (transcript : List Char) :
    Bool × List Char :=
  if !enabled then (true, transcript)
  else if userPresent &&
      (match lastResponseAt with
       | some ts => decide (now - ts < windowMs)
       | none => false) then
    (true, transcript)
  else
    checkWakeGo transcript (jsTrim (lowerChars transcript)) phrases

/-! ## C7 — alert queue (`src/alert-queue.js` lines 9-46) -/

/-- A stored alert. -/
structure Alert where
  message : String
  priority : String
  timestamp : Int
  fullDetails : Option String
  source : Option String
deriving DecidableEq, Repr

/-- Caller-supplied alert payload (all fields may be absent). -/
structure AlertInput where
  message : String
  priority : Option String
  timestamp : Option Int
  fullDetails : Option String
  source : Option String
deriving DecidableEq, Repr

/-- The queue length cap `MAX_ALERTS`. -/
def MAX_ALERTS : Nat := 50

/-- The alert time-to-live `ALERT_TTL_MS` (4 hours). -/
def ALERT_TTL_MS : Int := 4 * 60 * 60 * 1000

/-- JS `alert.timestamp || now` (note `0` is falsy). -/
def effTimestamp (now : Int) : Option Int → Int
  | some v => if v = 0 then now else v
  | none => now

/-- JS `alert.priority || 'normal'` (the empty string is falsy). -/
def effPriority : Option String → String
  | some s => if s = "" then "normal" else s
  | none => "normal"

/-- Sort rank of a priority string: urgent before everything else. -/
def alertRank (a : Alert) : Nat := if a.priority = "urgent" then 0 else 1

/-- The comparator of the `pendingAlerts.sort(...)` call as a total
preorder: urgent first, then ascending timestamp.  JS `Array.sort` is
stable, so the sort is modelled by stable insertion sort below. -/
def alertLe (a b : Alert) : Prop :=
  alertRank a < alertRank b ∨ (alertRank a = alertRank b ∧ a.timestamp ≤ b.timestamp)

instance : DecidableRel alertLe := fun a b => by unfold alertLe; infer_instance

instance : IsTotal Alert alertLe :=
  ⟨by
    intro a b
    unfold alertLe
    rcases Nat.lt_trichotomy (alertRank a) (alertRank b) with h | h | h
    · exact Or.inl (Or.inl h)
    · rcases Int.le_total a.timestamp b.timestamp with ht | ht
      · exact Or.inl (Or.inr ⟨h, ht⟩)
      · exact Or.inr (Or.inr ⟨h.symm, ht⟩)
    · exact Or.inr (Or.inl h)⟩

instance : IsTrans Alert alertLe :=
  ⟨by
    intro a b c hab hbc
    unfold alertLe at *
    omega⟩

/-- The TTL pruning pass (the backwards `splice` loop keeps exactly the
non-expired alerts in order, i.e. it is a filter). -/
def pruneExpired (now : Int) (q : List Alert) : List Alert :=
  q.filter fun a => !(decide (now - a.timestamp > ALERT_TTL_MS))

/-- Index the cap loop evicts: the first non-urgent alert, else index 0
(`normalIdx >= 0 ? normalIdx : 0`). -/
def evictIdx (q : List Alert) : Nat :=
  let i := q.findIdx fun a => !(decide (a.priority = "urgent"))
  if i < q.length then i else 0

/-- Fuelled `while (pendingAlerts.length > MAX_ALERTS)` eviction loop. -/
def capGo : Nat → List Alert → List Alert
  | 0, q => q
  | n + 1, q => if q.length > MAX_ALERTS then capGo n (q.eraseIdx (evictIdx q)) else q

/-- The cap-enforcement loop (each iteration removes one element, so
`length` fuel suffices). -/
def capAlerts (q : List Alert) : List Alert := capGo q.length q

/-- The alert record pushed by `queueAlert`: the payload with priority and
timestamp defaulted. -/
def queuedAlert (now : Int) (a : AlertInput) : Alert :=
  { message := a.message
    priority := effPriority a.priority
    timestamp := effTimestamp now a.timestamp
    fullDetails := a.fullDetails
    source := a.source }

/-- The queue state right after the `push`: pruned old alerts followed by
the new alert. -/
def pushedAlerts (now : Int) (a : AlertInput) (q : List Alert) : List Alert :=
  pruneExpired now q ++ [queuedAlert now a]

/-- Embedding of `queueAlert` (`src/alert-queue.js` lines 9-46): prune
expired alerts, push the new alert with defaulted fields, enforce the
cap, and stably sort urgent-first / oldest-first. -/
def queueAlert (now : Int) (a : AlertInput) (q : List Alert) : List Alert :=
  List.insertionSort alertLe (capAlerts (pushedAlerts now a q))

/-! ## C8 — short/quiet utterance gating (`src/index.js` lines 414-424)

    audioStream.once('end', async () => {
      userSpeaking.delete(userId);
      const totalBuffer = Buffer.concat(chunks);
      const durationMs = (totalBuffer.length / (48000 * 2)) * 1000;
      if (durationMs < MIN_AUDIO_DURATION_MS) return;
      await handleSpeech(userId, totalBuffer);
    });

`handleSpeech` (lines 451-465) then unconditionally writes the WAV and
calls `transcribeAudio`.  The buffer holds 16-bit mono 48 kHz samples, so
its byte length is twice the sample count and the comparison
`durationMs < 300` is exactly `samples < 14400`. -/

/-- The minimum duration `MIN_AUDIO_DURATION_MS`. -/
def MIN_AUDIO_DURATION_MS : Nat := 300

/-- Embedding of the `'end'` handler decision: is `handleSpeech` (and
hence the transcription call) reached for a buffer of the given 16-bit
samples?  `durationMs = (2·n / 96000)·1000`, compared exactly. -/
def audioEndTranscribes (samples : List Int) : Bool :=
  !(decide ((2 * samples.length) * 1000 < MIN_AUDIO_DURATION_MS * 96000))

/-- Modelled from the spec (no RMS computation exists anywhere in the
source): the root-mean-square energy of the samples is below the floor of
500, i.e. `Σ s² < 500² · n`. -/
def rmsBelowFloor (samples : List Int) : Prop :=
  (samples.map fun s => s * s).sum < 250000 * samples.length

/-! ## C9 — alert webhook `POST /alert` (second module of `src/stt.js`,
lines 179-215) -/

/-- An incoming `POST /alert` request: the `Authorization` header and the
JSON body fields. -/
structure AlertRequest where
  authHeader : Option String
  message : Option String
  priority : Option String
  fullDetails : Option String
  source : Option String
deriving DecidableEq, Repr

/-- Response of the `/alert` endpoint. -/
inductive AlertResponse where
  | unauthorized
  | badRequest
  | okQueued (userInVoice : Bool)
deriving DecidableEq, Repr

/-- JS `fullDetails || null`. -/
def effDetails : Option String → Option String
  | some s => if s = "" then none else some s
  | none => none

/-- JS `source || 'external'`. -/
def effSource : Option String → String
  | some s => if s = "" then "external" else s
  | none => "external"

/-- Embedding of the `POST /alert` handler: token check, body validation,
queueing, then the JSON reply.  The third output records whether any
side effect beyond queueing (DM notification or briefing callback) was
reached. -/
def postAlert (token : String) (now : Int) (userInVoice : Bool)
    (req : AlertRequest) (q : List Alert) : AlertResponse × List Alert × Bool :=
  if req.authHeader ≠ some ("Bearer " ++ token) then (.unauthorized, q, false)
  else
    match req.message with
    | none => (.badRequest, q, false)
    | some m =>
      if m = "" then (.badRequest, q, false)
      else
        let q2 := queueAlert now
          { message := m
            priority := some (effPriority req.priority)
            timestamp := none
            fullDetails := effDetails req.fullDetails
            source := some (effSource req.source) } q
        (.okQueued userInVoice, q2, true)

/-! ## Theorems -/

theorem trimHistGo_eq_drop (n : Nat) (l : List HistEntry) (h : l.length ≤ 40 + n) :
    trimHistGo n l = l.drop (l.length - 40) := by
  induction n generalizing l with
  | zero =>
    have hz : l.length - 40 = 0 := by omega
    simp [trimHistGo, hz]
  | succ n ih =>
    by_cases hl : l.length > 40
    · cases l with
      | nil => simp at hl
      | cons a t =>
        rw [trimHistGo, if_pos hl, List.tail_cons,
          ih t (by simp only [List.length_cons] at h; omega)]
        simp only [List.length_cons] at hl ⊢
        have hstep : t.length + 1 - 40 = (t.length - 40) + 1 := by omega
        rw [hstep, List.drop_succ_cons]
    · rw [trimHistGo, if_neg hl]
      have hz : l.length - 40 = 0 := by omega
      simp [hz]

/-- **C6.** For every speaker the in-process conversation history never
exceeds 40 entries: each of the two mutation sites appends one entry and
then evicts from the front (oldest first), so a history within the cap
stays within the cap, and the result is exactly the suffix of the
appended history that fits. -/
theorem history_cap (l : List HistEntry) (e : HistEntry) (h : l.length ≤ 40) :
    (pushHistoryCapped l e).length ≤ 40 ∧
    pushHistoryCapped l e = (l ++ [e]).drop (l.length + 1 - 40) := by
  have key : pushHistoryCapped l e = (l ++ [e]).drop (l.length + 1 - 40) := by
    rw [pushHistoryCapped, trimHistLoop, trimHistGo_eq_drop _ _ (by omega)]
    simp
  refine ⟨?_, key⟩
  rw [key]
  simp only [List.length_drop, List.length_append, List.length_cons, List.length_nil]
  omega

/-- Witness for C6 at a full history. -/
theorem history_cap_witness :
    (List.replicate 40 (⟨"user", "x"⟩ : HistEntry)).length ≤ 40 ∧
    (pushHistoryCapped (List.replicate 40 ⟨"user", "x"⟩) ⟨"assistant", "y"⟩).length ≤ 40 := by
  have h : (List.replicate 40 (⟨"user", "x"⟩ : HistEntry)).length ≤ 40 := by simp
  exact ⟨h, (history_cap _ _ h).1⟩

/-- **C1 counterexample.** `cancelAllTasks()` has no `return` statement:
with one live task it returns `undefined` (`none`), not the count `1`,
refuting the claim that the call returns the count of tasks cancelled. -/
theorem cancelAllTasks_no_count :
    (cancelAllTasks ⟨[(1, 1)], [], [7], true, true⟩).2 ≠
      some (activeCount ⟨[(1, 1)], [], [7], true, true⟩) := by decide

/-- **C1 (amended).** After `cancelAllTasks()` every live task's abort
controller has been triggered, the active-tasks map is empty (so
`activeCount() == 0`), the playback queue is empty with the playing flag
(and `isSpeaking`) reset to false; the call returns no value (the count
is only logged). -/
theorem cancelAllTasks_spec (s : SessionState) :
    (∀ p ∈ s.activeTasks, p.2 ∈ (cancelAllTasks s).1.abortedControllers) ∧
    (cancelAllTasks s).1.activeTasks = [] ∧
    activeCount (cancelAllTasks s).1 = 0 ∧
    (cancelAllTasks s).1.queue = [] ∧
    (cancelAllTasks s).1.playing = false ∧
    (cancelAllTasks s).1.speaking = false ∧
    (cancelAllTasks s).2 = none := by
  refine ⟨fun p hp => ?_, rfl, rfl, rfl, rfl, rfl, rfl⟩
  simp only [cancelAllTasks, audioQueueClear, List.mem_append]
  exact Or.inr (List.mem_map_of_mem _ hp)

/-- Witness for the amended C1 at a concrete session state. -/
theorem cancelAllTasks_spec_witness :
    (1, 5).2 ∈ (cancelAllTasks ⟨[(1, 5)], [], [9], true, true⟩).1.abortedControllers ∧
    (cancelAllTasks ⟨[(1, 5)], [], [9], true, true⟩).2 = none :=
  ⟨(cancelAllTasks_spec _).1 (1, 5) (by decide),
   (cancelAllTasks_spec _).2.2.2.2.2.2⟩

/-- **C8 counterexample.** A 300 ms buffer of pure silence (14400 zero
samples) has RMS 0, far below the floor of 500, yet the `'end'` handler
proceeds to `handleSpeech` and hence to the transcription call: no RMS
filter exists in the source. -/
theorem audioEnd_rms_not_filtered :
    rmsBelowFloor (List.replicate 14400 (0 : Int)) ∧
    audioEndTranscribes (List.replicate 14400 (0 : Int)) = true := by
  constructor
  · unfold rmsBelowFloor
    simp only [List.map_replicate, mul_zero, List.sum_replicate, smul_zero,
      List.length_replicate]
    norm_num
  · unfold audioEndTranscribes MIN_AUDIO_DURATION_MS
    rw [List.length_replicate]
    decide

/-- **C8 (amended).** The `'end'` handler filters on duration only: the
transcription call is reached exactly when the buffer holds at least
14400 samples (300 ms at 48 kHz mono 16-bit); in particular an utterance
shorter than `MIN_AUDIO_DURATION_MS` is discarded without any
transcription call, but no RMS-energy filter is applied. -/
theorem audioEnd_gate (samples : List Int) :
    audioEndTranscribes samples = true ↔ 14400 ≤ samples.length := by
  unfold audioEndTranscribes MIN_AUDIO_DURATION_MS
  simp only [Bool.not_eq_true', decide_eq_false_iff_not, not_lt]
  omega

/-- Witness for C8 at a concrete short buffer: 100 samples is below the
duration floor, so the gate evaluates to false. -/
theorem audioEnd_gate_witness :
    audioEndTranscribes (List.replicate 100 (0 : Int)) ≠ true := by
  have h := (audioEnd_gate (List.replicate 100 (0 : Int))).mp
  intro hc
  have := h hc
  simp at this

/-- **C9.** The `POST /alert` handler: a request whose `Authorization`
header differs from `Bearer <token>` is answered 401 with no effect on
the queue or the voice pipeline; an authorized request without a message
is answered 400 with no effect; otherwise the alert is queued via
`queueAlert` and the reply is `{ok: true, queued: true, userInVoice}`. -/
theorem postAlert_spec (token : String) (now : Int) (inVoice : Bool)
    (req : AlertRequest) (q : List Alert) :
    (req.authHeader ≠ some ("Bearer " ++ token) →
      postAlert token now inVoice req q = (.unauthorized, q, false)) ∧
    (req.authHeader = some ("Bearer " ++ token) →
      (req.message = none ∨ req.message = some "") →
      postAlert token now inVoice req q = (.badRequest, q, false)) ∧
    (∀ m, req.authHeader = some ("Bearer " ++ token) →
      req.message = some m → m ≠ "" →
      postAlert token now inVoice req q =
        (.okQueued inVoice,
         queueAlert now
           { message := m
             priority := some (effPriority req.priority)
             timestamp := none
             fullDetails := effDetails req.fullDetails
             source := some (effSource req.source) } q,
         true)) := by
  refine ⟨fun h => ?_, fun h hm => ?_, fun m h hm hne => ?_⟩
  · simp [postAlert, h]
  · rcases hm with hm | hm <;> simp [postAlert, h, hm]
  · simp [postAlert, h, hm, hne]

/-- Witness for C9: the three branches at concrete requests. -/
theorem postAlert_spec_witness :
    postAlert ("t0") 5 true ⟨some ("Bearer bad"), some ("m"), none, none, none⟩ [] =
      (.unauthorized, [], false) ∧
    postAlert ("t0") 5 true ⟨some ("Bearer t0"), none, none, none, none⟩ [] =
      (.badRequest, [], false) ∧
    postAlert ("t0") 5 true ⟨some ("Bearer t0"), some ("hello"), none, none, none⟩ [] =
      (.okQueued true,
       queueAlert 5 ⟨"hello", some ("normal"), none, none, some ("external")⟩ [], true) := by
  refine ⟨(postAlert_spec _ 5 true _ []).1 (by decide), ?_, ?_⟩
  · exact (postAlert_spec _ 5 true _ []).2.1 (by decide) (Or.inl rfl)
  · exact (postAlert_spec _ 5 true _ []).2.2 ("hello") (by decide) rfl (by decide)

/-- **C3 counterexample.** A task whose brain call fails in transport
(gateway 500) is *not* reported as aborted: `generateResponse` converts
the failure into a fallback text, and `processBrainTask` appends that
fallback as an assistant entry — one append, where the claim demands
zero for a task that errored before the stream completed. -/
theorem brainTask_error_appends :
    (processBrainTask 1 (some (generateResponseResult (.httpError 500)))
        ⟨some [⟨"user", "hi"⟩], [1]⟩).conv =
      some [⟨"user", "hi"⟩, ⟨"assistant", connectFallback⟩] ∧
    (generateResponseResult (.httpError 500)).aborted = false := by
  exact ⟨by decide, rfl⟩

/-- **C3 (amended).** Per task at most one assistant entry is appended:
exactly one capped append when the result is present, not flagged
aborted, and the conversation exists; zero when the result is flagged
aborted, when the worker threw, or when the conversation is missing.
Transport errors are not flagged aborted — the brain client returns a
fallback text which is appended like a normal response. -/
theorem brainTask_append_spec (taskId : Nat) (st : TaskState) :
    (∀ r : BrainResult, r.aborted = true →
      (processBrainTask taskId (some r) st).conv = st.conv) ∧
    (∀ r : BrainResult, r.aborted = false → ∀ h, st.conv = some h →
      (processBrainTask taskId (some r) st).conv =
        some (pushHistoryCapped h ⟨"assistant", r.text⟩)) ∧
    (∀ r : BrainResult, st.conv = none →
      (processBrainTask taskId (some r) st).conv = none) ∧
    (processBrainTask taskId none st).conv = st.conv ∧
    (∀ g : GatewayOutcome, (generateResponseResult g).aborted = false) := by
  refine ⟨fun r hr => ?_, fun r hr h hconv => ?_, fun r hconv => ?_, ?_, fun g => ?_⟩
  · simp [processBrainTask, hr]
  · cases hab : r.aborted with
    | true => rw [hab] at hr; exact absurd hr (by simp)
    | false => simp [processBrainTask, hab, hconv]
  · cases hab : r.aborted <;> simp [processBrainTask, hab, hconv]
  · rfl
  · cases g <;> rfl

/-- Witness for the amended C3: an aborted result leaves the history
untouched at a concrete state. -/
theorem brainTask_append_spec_witness :
    (processBrainTask 2 (some ⟨"", true⟩) ⟨some [⟨"user", "hi"⟩], [2]⟩).conv =
      some [⟨"user", "hi"⟩] :=
  (brainTask_append_spec 2 ⟨some [⟨"user", "hi"⟩], [2]⟩).1 ⟨"", true⟩ rfl

theorem checkWakeGo_fst (tr lower : List Char) (ps : List (List Char)) :
    (checkWakeGo tr lower ps).1 = true ↔
      ∃ p ∈ ps, p.isPrefixOf lower = true ∨ containsSub (firstFiveWords lower) p = true := by
  induction ps with
  | nil => simp [checkWakeGo]
  | cons p rest ih =>
    cases h1 : p.isPrefixOf lower with
    | true =>
      refine ⟨fun _ => ⟨p, List.mem_cons_self _ _, Or.inl h1⟩, fun _ => ?_⟩
      simp [checkWakeGo, h1]
    | false =>
      cases h2 : containsSub (firstFiveWords lower) p with
      | true =>
        refine ⟨fun _ => ⟨p, List.mem_cons_self _ _, Or.inr h2⟩, fun _ => ?_⟩
        simp [checkWakeGo, h1, h2]
      | false =>
        have hstep : checkWakeGo tr lower (p :: rest) = checkWakeGo tr lower rest := by
          simp [checkWakeGo, h1, h2]
        rw [hstep, ih]
        constructor
        · rintro ⟨q, hq, hcase⟩
          exact ⟨q, List.mem_cons_of_mem _ hq, hcase⟩
        · rintro ⟨q, hq, hcase⟩
          rcases List.mem_cons.mp hq with rfl | hq2
          · rcases hcase with hc | hc
            · rw [h1] at hc; exact absurd hc (by simp)
            · rw [h2] at hc; exact absurd hc (by simp)
          · exact ⟨q, hq2, hcase⟩

theorem checkWakeGo_none (tr lower : List Char) (ps : List (List Char))
    (h : ∀ p ∈ ps, ¬(p.isPrefixOf lower = true ∨
        containsSub (firstFiveWords lower) p = true)) :
    checkWakeGo tr lower ps = (false, tr) := by
  induction ps with
  | nil => rfl
  | cons p rest ih =>
    have hp := h p (List.mem_cons_self _ _)
    have h1 : p.isPrefixOf lower = false := by
      cases hh : p.isPrefixOf lower with
      | false => rfl
      | true => exact absurd (Or.inl hh) hp
    have h2 : containsSub (firstFiveWords lower) p = false := by
      cases hh : containsSub (firstFiveWords lower) p with
      | false => rfl
      | true => exact absurd (Or.inr hh) hp
    have hstep : checkWakeGo tr lower (p :: rest) = checkWakeGo tr lower rest := by
      simp [checkWakeGo, h1, h2]
    rw [hstep]
    exact ih fun q hq => h q (List.mem_cons_of_mem _ hq)

theorem checkWakeGo_match (tr lower : List Char) :
    ∀ (l : List (List Char)) (p : List Char) (rest : List (List Char)),
    (∀ q ∈ l, ¬(q.isPrefixOf lower = true ∨
        containsSub (firstFiveWords lower) q = true)) →
    (p.isPrefixOf lower = true ∨ containsSub (firstFiveWords lower) p = true) →
    checkWakeGo tr lower (l ++ p :: rest) =
      (true, jsTrim (tr.drop
        ((if p.isPrefixOf lower then 0 else (indexOfSub lower p).getD 0) + p.length))) := by
  intro l
  induction l with
  | nil =>
    intro p rest _ hmatch
    cases h1 : p.isPrefixOf lower with
    | true =>
      simp only [List.nil_append]
      simp [checkWakeGo, h1]
    | false =>
      have h2 : containsSub (firstFiveWords lower) p = true := by
        rcases hmatch with hc | hc
        · rw [h1] at hc; exact absurd hc (by simp)
        · exact hc
      simp only [List.nil_append]
      simp [checkWakeGo, h1, h2, Nat.add_comm]
  | cons q l2 ih =>
    intro p rest hl hmatch
    have hq := hl q (List.mem_cons_self _ _)
    have h1 : q.isPrefixOf lower = false := by
      cases hh : q.isPrefixOf lower with
      | false => rfl
      | true => exact absurd (Or.inl hh) hq
    have h2 : containsSub (firstFiveWords lower) q = false := by
      cases hh : containsSub (firstFiveWords lower) q with
      | false => rfl
      | true => exact absurd (Or.inr hh) hq
    have hstep : checkWakeGo tr lower ((q :: l2) ++ p :: rest) =
        checkWakeGo tr lower (l2 ++ p :: rest) := by
      simp [checkWakeGo, h1, h2]
    rw [hstep]
    exact ih p rest (fun r hr => hl r (List.mem_cons_of_mem _ hr)) hmatch

/-- **C4 (amended).** When wake-word mode is off, `checkWakeWord` admits
every transcript unchanged.  When it is on and the conversation window is
closed: (a) a transcript is admitted exactly when some configured wake
phrase is a prefix of the lower-cased trimmed transcript or occurs as a
substring of the string formed by its first five words; (b) when no
phrase matches, the transcript is returned unchanged with `detected =
false`; (c) when a phrase matches, the first matching phrase `p` wins
and the cleaned transcript is
`trim(transcript.substring(idx + p.length))` with `idx = 0` for an
anchored match and otherwise `p`'s first index in the lower-cased
*trimmed* transcript — an index the code then applies to the *untrimmed*
transcript, so the phrase is stripped through only when the transcript
carries no leading whitespace.  An admitted transcript therefore need
only contain a wake phrase within its first five words, and the cleaned
transcript can retain a fragment of the phrase. -/
theorem checkWakeWord_gate (phrases : List (List Char)) (t : List Char)
    (now win : Int) (pres : Bool) (last : Option Int) :
    (checkWakeWord false phrases pres last now win t = (true, t)) ∧
    ((pres = true →
        (match last with
         | some ts => ¬(now - ts < win)
         | none => True)) →
      (((checkWakeWord true phrases pres last now win t).1 = true ↔
        ∃ p ∈ phrases, p.isPrefixOf (jsTrim (lowerChars t)) = true ∨
          containsSub (firstFiveWords (jsTrim (lowerChars t))) p = true) ∧
       ((∀ p ∈ phrases, ¬(p.isPrefixOf (jsTrim (lowerChars t)) = true ∨
            containsSub (firstFiveWords (jsTrim (lowerChars t))) p = true)) →
          checkWakeWord true phrases pres last now win t = (false, t)) ∧
       (∀ (l : List (List Char)) (p : List Char) (rest : List (List Char)),
          phrases = l ++ p :: rest →
          (∀ q ∈ l, ¬(q.isPrefixOf (jsTrim (lowerChars t)) = true ∨
              containsSub (firstFiveWords (jsTrim (lowerChars t))) q = true)) →
          (p.isPrefixOf (jsTrim (lowerChars t)) = true ∨
              containsSub (firstFiveWords (jsTrim (lowerChars t))) p = true) →
          checkWakeWord true phrases pres last now win t =
            (true, jsTrim (t.drop
              ((if p.isPrefixOf (jsTrim (lowerChars t)) then 0
                else (indexOfSub (jsTrim (lowerChars t)) p).getD 0) + p.length)))))) := by
  constructor
  · simp [checkWakeWord]
  · intro hclosed
    have hred : checkWakeWord true phrases pres last now win t =
        checkWakeGo t (jsTrim (lowerChars t)) phrases := by
      cases pres with
      | false => rw [checkWakeWord.eq_def]; simp
      | true =>
        cases last with
        | none => rw [checkWakeWord.eq_def]; simp
        | some ts =>
          have hts : ¬(now - ts < win) := by simpa using hclosed rfl
          rw [checkWakeWord.eq_def]; simp [hts]
    refine ⟨?_, ?_, ?_⟩
    · rw [hred]
      exact checkWakeGo_fst t (jsTrim (lowerChars t)) phrases
    · intro hnone
      rw [hred]
      exact checkWakeGo_none t (jsTrim (lowerChars t)) phrases hnone
    · intro l p rest hps hl hmatch
      rw [hred, hps]
      exact checkWakeGo_match t (jsTrim (lowerChars t)) l p rest hl hmatch

/-- **C4 counterexample.** With wake-word mode on and the window closed,
the transcript `i think jarvis should check` is admitted by the flexible
first-five-words scan even though it does not begin with any configured
wake phrase, refuting the final clause of the claim. -/
theorem wake_admitted_without_leading_phrase :
    (checkWakeWord true wakePhrasesDefault true none 1000000 60000
        (("i think jarvis should check").data)).1 = true ∧
    ¬∃ p ∈ wakePhrasesDefault,
        p.isPrefixOf (lowerChars (("i think jarvis should check").data)) = true := by
  decide

/-- Witness for the amended C4: disabled mode admits a concrete transcript
unchanged; the enabled/closed admit characterization holds at a concrete
admitted transcript; and the cleaned-transcript characterization,
instantiated at the leading-whitespace transcript `"  jarvis hello"`,
evaluates to `"is hello"` — the anchored index is applied to the
untrimmed transcript, so part of the phrase survives. -/
theorem checkWakeWord_gate_witness :
    checkWakeWord false wakePhrasesDefault true none 0 60000 (("hello").data) =
      (true, ("hello").data) ∧
    (checkWakeWord true wakePhrasesDefault true none 0 60000
      (("jarvis hello").data)).1 = true ∧
    checkWakeWord true wakePhrasesDefault true none 0 60000
      (("  jarvis hello").data) = (true, ("is hello").data) :=
  ⟨(checkWakeWord_gate wakePhrasesDefault (("hello").data) 0 60000 true none).1,
   (((checkWakeWord_gate wakePhrasesDefault (("jarvis hello").data) 0 60000 true none).2
      (fun _ => trivial)).1).mpr ⟨("jarvis").data, by decide, Or.inl (by decide)⟩,
   by
     have h := ((checkWakeWord_gate wakePhrasesDefault (("  jarvis hello").data)
        0 60000 true none).2 (fun _ => trivial)).2.2 [] (("jarvis").data)
        [("hey jarvis").data, ("hey travis").data, ("yo jarvis").data] rfl
        (by intro q hq; exact absurd hq (List.not_mem_nil q)) (Or.inl (by decide))
     rw [h]
     decide⟩

theorem evictIdx_lt (q : List Alert) (h : 0 < q.length) : evictIdx q < q.length := by
  unfold evictIdx
  by_cases hi : (q.findIdx fun a => !(decide (a.priority = "urgent"))) < q.length
  · simpa [hi] using hi
  · simpa [hi] using h

theorem capGo_succ (n : Nat) (q : List Alert) :
    capGo (n + 1) q =
      if q.length > MAX_ALERTS then capGo n (q.eraseIdx (evictIdx q)) else q := rfl

theorem capGo_length (n : Nat) (q : List Alert) (h : q.length ≤ 50 + n) :
    (capGo n q).length ≤ 50 := by
  induction n generalizing q with
  | zero => simpa [capGo] using h
  | succ n ih =>
    rw [capGo_succ]
    by_cases hq : q.length > MAX_ALERTS
    · rw [if_pos hq]
      apply ih
      have hpos : 0 < q.length := by
        unfold MAX_ALERTS at hq; omega
      rw [List.length_eraseIdx_of_lt (evictIdx_lt q hpos)]
      omega
    · rw [if_neg hq]
      unfold MAX_ALERTS at hq; omega

theorem mem_capGo (n : Nat) (q : List Alert) (x : Alert) (h : x ∈ capGo n q) : x ∈ q := by
  induction n generalizing q with
  | zero => simpa [capGo] using h
  | succ n ih =>
    rw [capGo_succ] at h
    by_cases hq : q.length > MAX_ALERTS
    · rw [if_pos hq] at h
      exact (List.eraseIdx_sublist q (evictIdx q)).subset (ih _ h)
    · rwa [if_neg hq] at h

theorem capGo_of_le (n : Nat) (q : List Alert) (h : q.length ≤ 50) : capGo n q = q := by
  cases n with
  | zero => rfl
  | succ n =>
    rw [capGo_succ, if_neg]
    unfold MAX_ALERTS; omega

theorem capAlerts_eq_eraseIdx (q : List Alert) (h : q.length = 51) :
    capAlerts q = q.eraseIdx (evictIdx q) := by
  unfold capAlerts
  rw [h]
  have h51 : capGo 51 q = capGo (50 + 1) q := rfl
  rw [h51, capGo_succ, if_pos (by unfold MAX_ALERTS; omega)]
  apply capGo_of_le
  have hpos : 0 < q.length := by omega
  rw [List.length_eraseIdx_of_lt (evictIdx_lt q hpos)]
  omega

theorem alert_normal_rank {b : Alert} (h : ¬(b.priority = "urgent")) : alertRank b = 1 := by
  simp [alertRank, h]

/-- **C7.** After every `queueAlert` call (from the webhook, which never
supplies a timestamp) on a reachable queue — sorted, within the cap, all
timestamps in the past — the queue is sorted urgent-first then
oldest-first, its length never exceeds 50, every stored alert is within
the 4-hour TTL, and when the push overflows the cap the evicted element
is a normal-priority alert of minimal timestamp among the normal-priority
alerts present. -/
theorem queueAlert_spec (now : Int) (a : AlertInput) (q : List Alert)
    (hts : a.timestamp = none)
    (hsorted : List.Sorted alertLe q)
    (hlen : q.length ≤ 50)
    (hpast : ∀ x ∈ q, x.timestamp ≤ now) :
    List.Sorted alertLe (queueAlert now a q) ∧
    (queueAlert now a q).length ≤ 50 ∧
    (∀ x ∈ queueAlert now a q, now - x.timestamp ≤ ALERT_TTL_MS) ∧
    ((pushedAlerts now a q).length = 51 →
      (∃ b ∈ pushedAlerts now a q, ¬(b.priority = "urgent")) →
      capAlerts (pushedAlerts now a q) =
        (pushedAlerts now a q).eraseIdx (evictIdx (pushedAlerts now a q)) ∧
      ∃ hlt : evictIdx (pushedAlerts now a q) < (pushedAlerts now a q).length,
        ¬(((pushedAlerts now a q).get ⟨evictIdx (pushedAlerts now a q), hlt⟩).priority
            = "urgent") ∧
        ∀ b ∈ pushedAlerts now a q, ¬(b.priority = "urgent") →
          ((pushedAlerts now a q).get
              ⟨evictIdx (pushedAlerts now a q), hlt⟩).timestamp ≤ b.timestamp) := by
  refine ⟨List.sorted_insertionSort alertLe _, ?_, ?_, ?_⟩
  · unfold queueAlert
    rw [(List.perm_insertionSort alertLe _).length_eq]
    exact capGo_length _ _ (by omega)
  · intro x hx
    rw [queueAlert] at hx
    have hx2 : x ∈ capAlerts (pushedAlerts now a q) :=
      (List.perm_insertionSort alertLe _).mem_iff.mp hx
    have hx3 : x ∈ pushedAlerts now a q := mem_capGo _ _ _ hx2
    rcases List.mem_append.mp hx3 with hx4 | hx4
    · have := List.of_mem_filter hx4
      simpa using this
    · have hx5 : x = queuedAlert now a := by simpa using hx4
      rw [hx5]
      simp [queuedAlert, effTimestamp, hts, ALERT_TTL_MS]
  · intro hover hnorm
    have hnormB : ∃ b ∈ pushedAlerts now a q, (!(decide (b.priority = "urgent"))) = true := by
      obtain ⟨b, hb, hbn⟩ := hnorm
      exact ⟨b, hb, by simpa using hbn⟩
    have hfi : (pushedAlerts now a q).findIdx
        (fun b => !(decide (b.priority = "urgent"))) < (pushedAlerts now a q).length :=
      List.findIdx_lt_length_of_exists hnormB
    have hev : evictIdx (pushedAlerts now a q) =
        (pushedAlerts now a q).findIdx (fun b => !(decide (b.priority = "urgent"))) := by
      unfold evictIdx
      rw [if_pos hfi]
    refine ⟨capAlerts_eq_eraseIdx _ hover, ?_⟩
    rw [hev]
    refine ⟨hfi, ?_, ?_⟩
    · have := @List.findIdx_getElem _ (fun b => !(decide (b.priority = "urgent")))
        (pushedAlerts now a q) hfi
      simpa [List.get_eq_getElem] using this
    · intro b hb hbn
      obtain ⟨j, hjeq⟩ := List.mem_iff_get.mp hb
      set i := (pushedAlerts now a q).findIdx (fun b => !(decide (b.priority = "urgent")))
        with hidef
      rcases Nat.lt_trichotomy j.val i with hji | hji | hji
      · exfalso
        have hnq : ¬((fun b => !(decide (b.priority = "urgent")))
            ((pushedAlerts now a q).get j) = true) := by
          have := @List.not_of_lt_findIdx _ (fun b => !(decide (b.priority = "urgent")))
            (pushedAlerts now a q) j.val hji
          simpa [List.get_eq_getElem] using this
        rw [hjeq] at hnq
        exact hnq (by simpa using hbn)
      · rw [← hjeq]
        have : (⟨i, hfi⟩ : Fin (pushedAlerts now a q).length) = j := by
          apply Fin.ext
          exact hji.symm
        rw [this]
      · -- i < j: the element at i is in the sorted pruned part
        have hplen : (pushedAlerts now a q).length = (pruneExpired now q).length + 1 := by
          unfold pushedAlerts
          simp
        have hjlt : j.val < (pruneExpired now q).length + 1 := by
          rw [← hplen]; exact j.isLt
        have hilt : i < (pruneExpired now q).length := by omega
        have hgi : (pushedAlerts now a q).get ⟨i, hfi⟩ =
            (pruneExpired now q).get ⟨i, hilt⟩ := by
          unfold pushedAlerts
          simp [List.getElem_append_left, List.get_eq_getElem, hilt]
        have hpruneSub : ∀ y ∈ pruneExpired now q, y ∈ q := fun y hy =>
          List.mem_of_mem_filter hy
        by_cases hjend : j.val = (pruneExpired now q).length
        · -- b is the freshly pushed alert with timestamp `now`
          have hbval : b = queuedAlert now a := by
            rw [← hjeq]
            unfold pushedAlerts
            simp [List.get_eq_getElem, List.getElem_append_right, hjend]
          have hbts : b.timestamp = now := by
            rw [hbval]
            simp [queuedAlert, effTimestamp, hts]
          rw [hgi, hbts]
          exact hpast _ (hpruneSub _ (List.get_mem _ _ _))
        · have hjpr : j.val < (pruneExpired now q).length := by omega
          have hgj : (pushedAlerts now a q).get j =
              (pruneExpired now q).get ⟨j.val, hjpr⟩ := by
            unfold pushedAlerts
            simp [List.get_eq_getElem, List.getElem_append_left, hjpr]
          have hps : List.Sorted alertLe (pruneExpired now q) := hsorted.filter _
          have hle : alertLe ((pruneExpired now q).get ⟨i, hilt⟩)
              ((pruneExpired now q).get ⟨j.val, hjpr⟩) :=
            hps.rel_get_of_lt (by simpa using hji)
          have hrank_i : alertRank ((pruneExpired now q).get ⟨i, hilt⟩) = 1 := by
            apply alert_normal_rank
            have := @List.findIdx_getElem _ (fun b => !(decide (b.priority = "urgent")))
              (pushedAlerts now a q) hfi
            have hgi2 : ((pushedAlerts now a q).get ⟨i, hfi⟩).priority ≠ "urgent" := by
              simpa [List.get_eq_getElem] using this
            rw [hgi] at hgi2
            exact hgi2
          have hrank_j : alertRank ((pruneExpired now q).get ⟨j.val, hjpr⟩) = 1 := by
            apply alert_normal_rank
            rw [← hgj, hjeq]
            exact hbn
          rw [hgi, ← hjeq, hgj]
          rcases hle with hlt | ⟨_, hts2⟩
          · rw [hrank_i, hrank_j] at hlt
            omega
          · exact hts2

/-- Witness for C7 at the empty queue. -/
theorem queueAlert_spec_witness :
    (queueAlert 100 ⟨"m", none, none, none, none⟩ []).length ≤ 50 :=
  (queueAlert_spec 100 ⟨"m", none, none, none, none⟩ [] rfl (by simp) (by simp)
    (by simp)).2.1

theorem replaceScan_id (tr : Bool → List Char → Option (List Char × Nat))
    (fuel : Nat) (ls : Bool) (l : List Char) (hfuel : l.length ≤ fuel)
    (h : ∀ b x, x <:+ l → tr b x = none) :
    replaceScan tr fuel ls l = l := by
  induction fuel generalizing ls l with
  | zero =>
    cases l with
    | nil => rfl
    | cons c rest => simp at hfuel
  | succ fuel ih =>
    cases l with
    | nil => rfl
    | cons c rest =>
      rw [replaceScan, h ls (c :: rest) (List.suffix_refl _)]
      show c :: replaceScan tr fuel (lineTerm c) rest = c :: rest
      congr 1
      refine ih (lineTerm c) rest (by simpa using Nat.le_of_succ_le_succ hfuel) ?_
      intro b x hx
      exact h b x (hx.trans (List.suffix_cons c rest))

theorem runScan_id (tr : Bool → List Char → Option (List Char × Nat)) (l : List Char)
    (h : ∀ b x, x <:+ l → tr b x = none) : runScan tr l = l :=
  replaceScan_id tr l.length true l le_rfl h

theorem simple_head_facts {c : Char} (hc : simpleVoiceChar c = true) :
    ¬(c = '*') ∧ ¬(c = '#') ∧ ¬(c = '`') ∧ ¬(c = '-') ∧ ¬(c = '+') ∧ ¬(c = '[') ∧
    ¬(c = '\n') ∧ isDigit c = false ∧ (jsWs c = true → c.toNat = 32) := by
  refine ⟨fun hh => absurd (hh ▸ hc) (by decide), fun hh => absurd (hh ▸ hc) (by decide),
    fun hh => absurd (hh ▸ hc) (by decide), fun hh => absurd (hh ▸ hc) (by decide),
    fun hh => absurd (hh ▸ hc) (by decide), fun hh => absurd (hh ▸ hc) (by decide),
    fun hh => absurd (hh ▸ hc) (by decide), ?_, ?_⟩
  · simp only [simpleVoiceChar, Bool.or_eq_true, Bool.and_eq_true, decide_eq_true_eq] at hc
    simp only [isDigit, Bool.and_eq_true, decide_eq_true_eq, Bool.and_eq_false_iff,
      decide_eq_false_iff_not]
    omega
  · intro hw
    simp only [simpleVoiceChar, Bool.or_eq_true, Bool.and_eq_true, decide_eq_true_eq] at hc
    simp only [jsWs, Bool.or_eq_true, Bool.and_eq_true, decide_eq_true_eq] at hw
    omega

theorem matchBold_none (x : List Char) (h : ∀ c ∈ x, simpleVoiceChar c = true) :
    matchBold x = none := by
  cases x with
  | nil => rfl
  | cons c t =>
    have hc := simple_head_facts (h c (List.mem_cons_self c t))
    rw [matchBold, if_neg]
    intro heq
    exact hc.1 (List.cons_eq_cons.mp heq).1

theorem matchItalic_none (x : List Char) (h : ∀ c ∈ x, simpleVoiceChar c = true) :
    matchItalic x = none := by
  cases x with
  | nil => rfl
  | cons c t =>
    have hc := simple_head_facts (h c (List.mem_cons_self c t))
    rw [matchItalic, if_neg]
    intro heq
    exact hc.1 (List.cons_eq_cons.mp heq).1

theorem matchHeader_none (x : List Char) (h : ∀ c ∈ x, simpleVoiceChar c = true) :
    matchHeader x = none := by
  cases x with
  | nil => rfl
  | cons c t =>
    have hc := simple_head_facts (h c (List.mem_cons_self c t))
    have htw : (c :: t).takeWhile (· = '#') = [] := by
      rw [List.takeWhile_cons]
      simp [hc.2.1]
    rw [matchHeader, htw]
    simp

theorem matchCodeBlock_none (x : List Char) (h : ∀ c ∈ x, simpleVoiceChar c = true) :
    matchCodeBlock x = none := by
  cases x with
  | nil => rfl
  | cons c t =>
    have hc := simple_head_facts (h c (List.mem_cons_self c t))
    rw [matchCodeBlock, if_neg]
    intro heq
    exact hc.2.2.1 (List.cons_eq_cons.mp heq).1

theorem matchInlineCode_none (x : List Char) (h : ∀ c ∈ x, simpleVoiceChar c = true) :
    matchInlineCode x = none := by
  cases x with
  | nil => rfl
  | cons c t =>
    have hc := simple_head_facts (h c (List.mem_cons_self c t))
    rw [matchInlineCode, if_neg]
    intro heq
    exact hc.2.2.1 (List.cons_eq_cons.mp heq).1

theorem matchBullet_none (ls : Bool) (x : List Char)
    (h : ∀ c ∈ x, simpleVoiceChar c = true) : matchBullet ls x = none := by
  cases ls with
  | false => rfl
  | true =>
    cases x with
    | nil => rfl
    | cons c t =>
      have hc := simple_head_facts (h c (List.mem_cons_self c t))
      rw [matchBullet]
      simp [hc.1, hc.2.2.2.1, hc.2.2.2.2.1]

theorem matchNumbered_none (ls : Bool) (x : List Char)
    (h : ∀ c ∈ x, simpleVoiceChar c = true) : matchNumbered ls x = none := by
  cases ls with
  | false => rfl
  | true =>
    cases x with
    | nil => rfl
    | cons c t =>
      have hc := simple_head_facts (h c (List.mem_cons_self c t))
      have htw : (c :: t).takeWhile isDigit = [] := by
        rw [List.takeWhile_cons]
        simp [hc.2.2.2.2.2.2.2.1]
      rw [matchNumbered]
      simp [htw]

theorem matchLink_none (x : List Char) (h : ∀ c ∈ x, simpleVoiceChar c = true) :
    matchLink x = none := by
  cases x with
  | nil => rfl
  | cons c t =>
    have hc := simple_head_facts (h c (List.mem_cons_self c t))
    rw [matchLink, if_neg]
    intro heq
    exact hc.2.2.2.2.2.1 (List.cons_eq_cons.mp heq).1

theorem matchMultiNewline_none (x : List Char) (h : ∀ c ∈ x, simpleVoiceChar c = true) :
    matchMultiNewline x = none := by
  cases x with
  | nil => rfl
  | cons c t =>
    have hc := simple_head_facts (h c (List.mem_cons_self c t))
    have htw : (c :: t).takeWhile (· = '\n') = [] := by
      rw [List.takeWhile_cons]
      simp [hc.2.2.2.2.2.2.1]
    rw [matchMultiNewline, htw]
    simp

theorem matchNewline_none (x : List Char) (h : ∀ c ∈ x, simpleVoiceChar c = true) :
    matchNewline x = none := by
  cases x with
  | nil => rfl
  | cons c t =>
    have hc := simple_head_facts (h c (List.mem_cons_self c t))
    rw [matchNewline, if_neg]
    intro heq
    exact hc.2.2.2.2.2.2.1 (List.cons_eq_cons.mp heq).1

theorem matchMultiWs_none_head {c : Char} (t : List Char) (hc : jsWs c = false) :
    matchMultiWs (c :: t) = none := by
  unfold matchMultiWs
  simp [List.takeWhile_cons, hc]

theorem matchMultiWs_none_single (c d : Char) (t : List Char) (hd : jsWs d = false) :
    matchMultiWs (c :: d :: t) = none := by
  unfold matchMultiWs
  cases hc : jsWs c with
  | false => simp [List.takeWhile_cons, hc]
  | true => simp [List.takeWhile_cons, hc, hd]

theorem matchMultiWs_none_of_chain (x : List Char) (h : List.Chain' noWsPair x) :
    matchMultiWs x = none := by
  match x with
  | [] => rfl
  | [c] =>
    unfold matchMultiWs
    cases hc : jsWs c <;> simp [List.takeWhile_cons, hc]
  | c :: d :: t =>
    have hp : noWsPair c d := (List.chain'_cons.mp h).1
    by_cases hc : jsWs c = true
    · have hd : jsWs d = false := by
        cases hdd : jsWs d with
        | false => rfl
        | true => exact absurd ⟨hc, hdd⟩ hp
      exact matchMultiWs_none_single c d t hd
    · exact matchMultiWs_none_head _ (by simpa using hc)

theorem matchMultiWs_some {x rep : List Char} {n : Nat}
    (h : matchMultiWs x = some (rep, n)) :
    rep = [' '] ∧ 2 ≤ n ∧ n = (x.takeWhile jsWs).length := by
  unfold matchMultiWs at h
  by_cases h2 : 2 ≤ (x.takeWhile jsWs).length
  · rw [if_pos h2] at h
    cases h
    exact ⟨rfl, h2, rfl⟩
  · rw [if_neg h2] at h
    exact absurd h (by simp)

theorem drop_takeWhile_eq_dropWhile (p : Char → Bool) (l : List Char) :
    l.drop (l.takeWhile p).length = l.dropWhile p := by
  nth_rewrite 2 [← List.takeWhile_append_dropWhile (p := p) (l := l)]
  rw [List.drop_left]

theorem collapse_cons_head (fuel : Nat) (ls : Bool) (d : Char) (t : List Char)
    (hd : jsWs d = false) :
    (replaceScan (fun _ => matchMultiWs) fuel ls (d :: t)).head? = some d := by
  cases fuel with
  | zero => rfl
  | succ fuel => simp [replaceScan, matchMultiWs_none_head t hd]

theorem collapse_chain (fuel : Nat) (ls : Bool) (l : List Char) (hfuel : l.length ≤ fuel) :
    List.Chain' noWsPair (replaceScan (fun _ => matchMultiWs) fuel ls l) := by
  induction fuel generalizing ls l with
  | zero =>
    have hl : l = [] := List.length_eq_zero.mp (Nat.le_zero.mp hfuel)
    subst hl
    simp [replaceScan]
  | succ fuel ih =>
    cases l with
    | nil => simp [replaceScan]
    | cons c rest =>
      cases hm : matchMultiWs (c :: rest) with
      | none =>
        have hstep : replaceScan (fun _ => matchMultiWs) (fuel + 1) ls (c :: rest) =
            c :: replaceScan (fun _ => matchMultiWs) fuel (lineTerm c) rest := by
          simp [replaceScan, hm]
        rw [hstep, List.chain'_cons']
        refine ⟨?_, ih _ rest (by simpa using hfuel)⟩
        intro y hy
        by_cases hc : jsWs c = true
        · cases rest with
          | nil =>
            cases fuel <;> simp [replaceScan] at hy
          | cons d t2 =>
            have hd : jsWs d = false := by
              cases hdd : jsWs d with
              | false => rfl
              | true =>
                exfalso
                have : matchMultiWs (c :: d :: t2) ≠ none := by
                  unfold matchMultiWs
                  simp [List.takeWhile_cons, hc, hdd]
                exact this hm
            rw [collapse_cons_head fuel _ d t2 hd] at hy
            have hyd : d = y := by simpa using hy
            subst hyd
            intro hand
            rw [hd] at hand
            exact absurd hand.2 (by simp)
        · intro hand
          exact absurd hand.1 (by simpa using hc)
      | some pr =>
        obtain ⟨rep, n⟩ := pr
        obtain ⟨hrep, h2n, hn⟩ := matchMultiWs_some hm
        subst hrep
        have hstep : replaceScan (fun _ => matchMultiWs) (fuel + 1) ls (c :: rest) =
            ' ' :: replaceScan (fun _ => matchMultiWs) fuel
              (lineTerm ((c :: rest).getD (n - 1) ' ')) ((c :: rest).drop n) := by
          simp [replaceScan, hm]
        have hafter : (c :: rest).drop n = (c :: rest).dropWhile jsWs := by
          rw [hn, drop_takeWhile_eq_dropWhile]
        have hlen : ((c :: rest).drop n).length ≤ fuel := by
          rw [List.length_drop]
          simp only [List.length_cons] at hfuel ⊢
          omega
        rw [hstep, List.chain'_cons']
        refine ⟨?_, ih _ _ hlen⟩
        intro y hy
        rw [hafter] at hy
        cases hdw : (c :: rest).dropWhile jsWs with
        | nil =>
          rw [hdw] at hy
          cases fuel <;> simp [replaceScan] at hy
        | cons e t3 =>
          have he : jsWs e = false := by
            have hnot := List.head?_dropWhile_not jsWs (c :: rest)
            rw [hdw] at hnot
            simpa using hnot
          rw [hdw, collapse_cons_head fuel _ e t3 he] at hy
          have hye : e = y := by simpa using hy
          subst hye
          intro hand
          rw [he] at hand
          exact absurd hand.2 (by simp)

theorem collapse_mem (fuel : Nat) (ls : Bool) (l : List Char)
    (h : ∀ c ∈ l, simpleVoiceChar c = true) :
    ∀ c ∈ replaceScan (fun _ => matchMultiWs) fuel ls l, simpleVoiceChar c = true := by
  induction fuel generalizing ls l with
  | zero =>
    intro c hc
    exact h c hc
  | succ fuel ih =>
    cases l with
    | nil =>
      intro c hc
      simp [replaceScan] at hc
    | cons a rest =>
      cases hm : matchMultiWs (a :: rest) with
      | none =>
        have hstep : replaceScan (fun _ => matchMultiWs) (fuel + 1) ls (a :: rest) =
            a :: replaceScan (fun _ => matchMultiWs) fuel (lineTerm a) rest := by
          simp [replaceScan, hm]
        rw [hstep]
        intro c hc
        rcases List.mem_cons.mp hc with rfl | hc2
        · exact h c (List.mem_cons_self _ _)
        · exact ih _ rest (fun d hd => h d (List.mem_cons_of_mem _ hd)) c hc2
      | some pr =>
        obtain ⟨rep, n⟩ := pr
        obtain ⟨hrep, h2n, hn⟩ := matchMultiWs_some hm
        subst hrep
        have hstep : replaceScan (fun _ => matchMultiWs) (fuel + 1) ls (a :: rest) =
            ' ' :: replaceScan (fun _ => matchMultiWs) fuel
              (lineTerm ((a :: rest).getD (n - 1) ' ')) ((a :: rest).drop n) := by
          simp [replaceScan, hm]
        rw [hstep]
        intro c hc
        rcases List.mem_cons.mp hc with rfl | hc2
        · decide
        · exact ih _ _ (fun d hd => h d (List.mem_of_mem_drop hd)) c hc2

theorem dropWhile_idem (p : Char → Bool) (l : List Char) :
    (l.dropWhile p).dropWhile p = l.dropWhile p := by
  induction l with
  | nil => rfl
  | cons c t ih =>
    rw [List.dropWhile_cons]
    by_cases hc : p c = true
    · simpa [hc] using ih
    · simp [List.dropWhile_cons, hc]

theorem jsTrimEnd_prefixOf (l : List Char) : jsTrimEnd l <+: l := by
  unfold jsTrimEnd
  refine List.reverse_suffix.mp ?_
  rw [List.reverse_reverse]
  exact List.dropWhile_suffix jsWs

theorem dropWhile_eq_self_of_prefix {p : Char → Bool} {x y : List Char}
    (hx : x.dropWhile p = x) (hxy : y <+: x) : y.dropWhile p = y := by
  cases y with
  | nil => rfl
  | cons c t =>
    cases x with
    | nil =>
      have := List.prefix_nil.mp hxy
      simp at this
    | cons d s =>
      have hcd : c = d := by
        obtain ⟨r, hr⟩ := hxy
        rw [List.cons_append] at hr
        exact (List.cons_eq_cons.mp hr).1
      have hd : p d = false := by
        rw [List.dropWhile_cons] at hx
        cases hpd : p d with
        | false => rfl
        | true =>
          rw [if_pos (by simp [hpd])] at hx
          have hle := (List.dropWhile_sublist (l := s) (p := p)).length_le
          rw [hx] at hle
          simp at hle
      rw [List.dropWhile_cons, hcd, hd]
      simp

theorem jsTrim_idem (l : List Char) : jsTrim (jsTrim l) = jsTrim l := by
  have hend_idem : ∀ z : List Char, jsTrimEnd (jsTrimEnd z) = jsTrimEnd z := by
    intro z
    unfold jsTrimEnd
    rw [List.reverse_reverse, dropWhile_idem]
  have hx : (jsTrimStart l).dropWhile jsWs = jsTrimStart l := by
    unfold jsTrimStart
    exact dropWhile_idem jsWs l
  have h1 : jsTrimStart (jsTrimEnd (jsTrimStart l)) = jsTrimEnd (jsTrimStart l) := by
    unfold jsTrimStart
    exact dropWhile_eq_self_of_prefix hx (jsTrimEnd_prefixOf _)
  show jsTrimEnd (jsTrimStart (jsTrimEnd (jsTrimStart l))) = jsTrimEnd (jsTrimStart l)
  rw [h1, hend_idem]

theorem mem_jsTrim {x : Char} {l : List Char} (h : x ∈ jsTrim l) : x ∈ l := by
  unfold jsTrim jsTrimEnd jsTrimStart at h
  have h1 := List.mem_reverse.mp h
  have h2 := (List.dropWhile_sublist _).subset h1
  have h3 := List.mem_reverse.mp h2
  exact (List.dropWhile_sublist _).subset h3

theorem chain'_dropWhile {R : Char → Char → Prop} {p : Char → Bool} {l : List Char}
    (h : List.Chain' R l) : List.Chain' R (l.dropWhile p) := by
  induction l with
  | nil => simp
  | cons c t ih =>
    rw [List.dropWhile_cons]
    by_cases hc : p c = true
    · simpa [hc] using ih h.tail
    · simpa [hc] using h

theorem chain'_jsTrim {l : List Char} (h : List.Chain' noWsPair l) :
    List.Chain' noWsPair (jsTrim l) := by
  have hsymm : ∀ {z : List Char}, List.Chain' noWsPair z.reverse →
      List.Chain' noWsPair z := by
    intro z hz
    rw [List.chain'_reverse] at hz
    exact hz.imp (fun a b hab hand => hab ⟨hand.2, hand.1⟩)
  have hsymm2 : ∀ {z : List Char}, List.Chain' noWsPair z →
      List.Chain' noWsPair z.reverse := by
    intro z hz
    rw [List.chain'_reverse]
    exact hz.imp (fun a b hab hand => hab ⟨hand.2, hand.1⟩)
  unfold jsTrim jsTrimEnd jsTrimStart
  exact hsymm (by
    rw [List.reverse_reverse]
    exact chain'_dropWhile (hsymm2 (chain'_dropWhile h)))

theorem trimForVoice_simple_eq (l : List Char) (h : ∀ c ∈ l, simpleVoiceChar c = true) :
    trimForVoice l = jsTrim (runScan (fun _ => matchMultiWs) l) := by
  unfold trimForVoice
  rw [runScan_id (fun _ => matchBold) l
      (fun _ x hx => matchBold_none x fun c hc => h c (hx.subset hc)),
    runScan_id (fun _ => matchItalic) l
      (fun _ x hx => matchItalic_none x fun c hc => h c (hx.subset hc)),
    runScan_id (fun _ => matchHeader) l
      (fun _ x hx => matchHeader_none x fun c hc => h c (hx.subset hc)),
    runScan_id (fun _ => matchCodeBlock) l
      (fun _ x hx => matchCodeBlock_none x fun c hc => h c (hx.subset hc)),
    runScan_id (fun _ => matchInlineCode) l
      (fun _ x hx => matchInlineCode_none x fun c hc => h c (hx.subset hc)),
    runScan_id matchBullet l
      (fun b x hx => matchBullet_none b x fun c hc => h c (hx.subset hc)),
    runScan_id matchNumbered l
      (fun b x hx => matchNumbered_none b x fun c hc => h c (hx.subset hc)),
    runScan_id (fun _ => matchLink) l
      (fun _ x hx => matchLink_none x fun c hc => h c (hx.subset hc)),
    runScan_id (fun _ => matchMultiNewline) l
      (fun _ x hx => matchMultiNewline_none x fun c hc => h c (hx.subset hc)),
    runScan_id (fun _ => matchNewline) l
      (fun _ x hx => matchNewline_none x fun c hc => h c (hx.subset hc))]

/-- **C10 counterexample.** `trimForVoice` is not idempotent: on
`- - a` the first pass strips one leading bullet marker and exposes
another, which only a second pass strips. -/
theorem trimForVoice_not_idempotent :
    trimForVoice (trimForVoice (("- - a").data)) ≠ trimForVoice (("- - a").data) := by
  decide

/-- **C10 (amended).** `trimForVoice` is idempotent on plain spoken text —
strings of letters, spaces and sentence punctuation, where none of the
markdown patterns can fire: there the function reduces to whitespace
collapsing plus trimming, and a second application is the identity.  (In
general a second application can strip further, e.g. a leading bullet
marker revealed by the first pass.) -/
theorem trimForVoice_idem_simple (l : List Char)
    (h : ∀ c ∈ l, simpleVoiceChar c = true) :
    trimForVoice (trimForVoice l) = trimForVoice l := by
  have hcoll_mem : ∀ c ∈ runScan (fun _ => matchMultiWs) l, simpleVoiceChar c = true :=
    collapse_mem _ _ _ h
  have hchain : List.Chain' noWsPair (runScan (fun _ => matchMultiWs) l) :=
    collapse_chain _ _ _ le_rfl
  have h1 : trimForVoice l = jsTrim (runScan (fun _ => matchMultiWs) l) :=
    trimForVoice_simple_eq l h
  have hr_mem : ∀ c ∈ jsTrim (runScan (fun _ => matchMultiWs) l),
      simpleVoiceChar c = true := fun c hc => hcoll_mem c (mem_jsTrim hc)
  have hr_chain : List.Chain' noWsPair (jsTrim (runScan (fun _ => matchMultiWs) l)) :=
    chain'_jsTrim hchain
  rw [h1, trimForVoice_simple_eq _ hr_mem,
    runScan_id (fun _ => matchMultiWs) _
      (fun _ x hx => matchMultiWs_none_of_chain x (hr_chain.suffix hx)),
    jsTrim_idem]

/-- Witness for the amended C10 on a concrete plain-text string. -/
theorem trimForVoice_idem_simple_witness :
    trimForVoice (trimForVoice (("hello there, friend.").data)) =
      trimForVoice (("hello there, friend.").data) :=
  trimForVoice_idem_simple (("hello there, friend.").data) (by decide)

theorem takeWhile_append_allP {p : Char → Bool} {u v : List Char}
    (hu : ∀ c ∈ u, p c = true) : (u ++ v).takeWhile p = u ++ v.takeWhile p := by
  induction u with
  | nil => simp
  | cons c t ih =>
    rw [List.cons_append, List.takeWhile_cons, hu c (List.mem_cons_self _ _)]
    simp only [if_true]
    rw [ih (fun d hd => hu d (List.mem_cons_of_mem _ hd))]
    rfl

theorem dropWhile_append_allP {p : Char → Bool} {u v : List Char}
    (hu : ∀ c ∈ u, p c = true) : (u ++ v).dropWhile p = v.dropWhile p := by
  induction u with
  | nil => simp
  | cons c t ih =>
    rw [List.cons_append, List.dropWhile_cons, if_pos (by simp [hu c (List.mem_cons_self _ _)])]
    exact ih fun d hd => hu d (List.mem_cons_of_mem _ hd)

theorem upper_not_ws {d : Char} (h : isUpper d = true) : jsWs d = false := by
  simp only [isUpper, Bool.and_eq_true, decide_eq_true_eq] at h
  simp only [jsWs, Bool.or_eq_true, Bool.and_eq_true, decide_eq_true_eq,
    Bool.or_eq_false_iff, Bool.and_eq_false_iff, decide_eq_false_iff_not]
  omega

theorem boundaryHead_iff (x : List Char) : boundaryHead x = true ↔ BoundaryDecomp x := by
  constructor
  · intro h
    cases x with
    | nil => simp [boundaryHead] at h
    | cons c r =>
      rw [boundaryHead] at h
      simp only [Bool.and_eq_true] at h
      obtain ⟨hc, h2⟩ := h
      simp only [Bool.and_eq_true, Bool.not_eq_true'] at h2
      obtain ⟨hne, h3⟩ := h2
      cases hdw : r.drop (r.takeWhile jsWs).length with
      | nil => rw [hdw] at h3; exact absurd h3 (by simp)
      | cons d t =>
        rw [hdw] at h3
        refine ⟨c, r.takeWhile jsWs, d, t, ?_, hc, ?_, ?_, h3⟩
        · rw [drop_takeWhile_eq_dropWhile] at hdw
          rw [← hdw, List.takeWhile_append_dropWhile]
        · intro hemp
          rw [hemp] at hne
          simp at hne
        · exact fun w hw => List.mem_takeWhile_imp hw
  · rintro ⟨c, u, d, t, rfl, hc, hune, hu, hd⟩
    rw [boundaryHead]
    have htw : (u ++ d :: t).takeWhile jsWs = u := by
      rw [takeWhile_append_allP hu, List.takeWhile_cons, upper_not_ws hd]
      simp
    simp only [Bool.and_eq_true]
    refine ⟨hc, ?_, ?_⟩
    · rw [htw]
      simpa using hune
    · rw [htw, List.drop_left]
      exact hd

theorem findBoundary_some_iff (x : List Char) (i : Nat) :
    findBoundary x = some i ↔
      boundaryHead (x.drop i) = true ∧ ∀ j < i, boundaryHead (x.drop j) = false := by
  induction x generalizing i with
  | nil =>
    simp only [findBoundary, List.drop_nil]
    constructor
    · intro h; exact absurd h (by simp)
    · rintro ⟨h, _⟩; simp [boundaryHead] at h
  | cons c r ih =>
    cases hb : boundaryHead (c :: r) with
    | true =>
      rw [findBoundary, if_pos hb]
      constructor
      · intro h
        have hi : i = 0 := by simpa using h.symm
        subst hi
        exact ⟨by simpa using hb, by omega⟩
      · rintro ⟨h1, h2⟩
        cases i with
        | zero => rfl
        | succ i => exact absurd hb (by simpa using h2 0 (Nat.succ_pos i))
    | false =>
      rw [findBoundary, if_neg (by simp [hb])]
      cases i with
      | zero =>
        simp only [List.drop_zero]
        constructor
        · intro h
          obtain ⟨i2, _, h3⟩ := Option.map_eq_some'.mp h
          exact absurd h3 (by simp)
        · rintro ⟨h1, _⟩
          rw [h1] at hb
          simp at hb
      | succ i =>
        rw [List.drop_succ_cons]
        constructor
        · intro h
          obtain ⟨i2, h2, h3⟩ := Option.map_eq_some'.mp h
          have hi : i2 = i := by omega
          rw [hi] at h2
          obtain ⟨g1, g2⟩ := (ih i).mp h2
          refine ⟨g1, ?_⟩
          intro j hj
          cases j with
          | zero => simpa using hb
          | succ j =>
            rw [List.drop_succ_cons]
            exact g2 j (by omega)
        · rintro ⟨h1, h2⟩
          have hr : findBoundary r = some i := by
            refine (ih i).mpr ⟨h1, ?_⟩
            intro j hj
            have := h2 (j + 1) (by omega)
            rwa [List.drop_succ_cons] at this
          rw [hr]
          rfl

theorem sbStep_emitted_inv {buf s rest : List Char}
    (h : sbStep buf = SbStep.emitted s rest) :
    ∃ i, findBoundary buf = some i ∧
      s = trimForVoice (jsTrim (buf.take (i + 1))) ∧
      20 ≤ (jsTrim (buf.take (i + 1))).length ∧ s ≠ [] ∧
      rest = jsTrimStart (buf.drop (i + 1)) := by
  unfold sbStep at h
  cases hfb : findBoundary buf with
  | none => rw [hfb] at h; exact absurd h (by simp)
  | some i =>
    rw [hfb] at h
    simp only at h
    refine ⟨i, rfl, ?_⟩
    generalize hs1 : jsTrim (buf.take (i + 1)) = sent at h ⊢
    generalize hs2 : trimForVoice sent = tv at h ⊢
    split at h
    next h20 =>
      split at h
      next hemp => exact absurd h (by simp)
      next hemp =>
        cases h
        exact ⟨rfl, h20, by simpa using hemp, rfl⟩
    next h20 => exact absurd h (by simp)

theorem sbLoop_emits {fuel : Nat} {buf s : List Char}
    (h : s ∈ (sbLoop fuel buf).1) :
    ∃ raw, s = trimForVoice raw ∧ 20 ≤ raw.length ∧ s ≠ [] := by
  induction fuel generalizing buf with
  | zero => simp [sbLoop] at h
  | succ fuel ih =>
    rw [sbLoop] at h
    cases hstep : sbStep buf with
    | noBoundary => rw [hstep] at h; simp at h
    | emitted s0 rest =>
      rw [hstep] at h
      simp only at h
      rcases List.mem_cons.mp h with rfl | h2
      · obtain ⟨i, _, hs, h20, hne, _⟩ := sbStep_emitted_inv hstep
        exact ⟨jsTrim (buf.take (i + 1)), hs, h20, hne⟩
      · exact ih h2
    | skipped rest => rw [hstep] at h; exact ih h
    | tooShort nb => rw [hstep] at h; exact ih h

theorem processTokens_emits {tokens : List (List Char)} {buf : List Char}
    {fuel : Nat} {s : List Char} (h : s ∈ (processTokens tokens buf fuel).1) :
    ∃ raw, s = trimForVoice raw ∧ 20 ≤ raw.length ∧ s ≠ [] := by
  induction tokens generalizing buf with
  | nil => simp [processTokens] at h
  | cons t ts ih =>
    rw [processTokens] at h
    simp only at h
    rcases List.mem_append.mp h with h2 | h2
    · exact sbLoop_emits h2
    · exact ih h2

/-- **C5 counterexample.** On the single-token stream
`Hello there my friend. they left` the claimed rule (boundary at `.`
followed by whitespace, emit when the cleaned prefix has length ≥ 2)
yields two sentences, but the embedded source splitter emits nothing
during the stream — the boundary regex also requires an upper-case
letter after the whitespace, and the candidate is shorter than the
actual minimum length 20 — and flushes the whole buffer as one sentence
at end of stream. -/
theorem streaming_split_counterexample :
    streamingEmits [("Hi. bye").data] 10 = [("Hi. bye").data] ∧
    claimEmits [("Hi. bye").data] 10 = [("Hi.").data, ("bye").data] ∧
    streamingEmits [("Hi. bye").data] 10 ≠ claimEmits [("Hi. bye").data] 10 := by
  set_option maxHeartbeats 2000000 in refine ⟨by decide, by decide, by decide⟩

/-- **C5 (amended).** In the streaming brain client a sentence boundary is
the first occurrence of `.`, `!` or `?` followed by a nonempty whitespace
run and then an upper-case ASCII letter; at each boundary the prefix up
to and including the punctuation is trimmed and, when its raw
(pre-cleaning) length is at least `MIN_SENTENCE_LENGTH = 20`, it is
stripped of markdown and emitted via `onSentence` when nonempty; shorter
candidates are prepended back onto the buffer with a single space; every
sentence emitted during the stream is therefore the markdown-stripped
image of a raw candidate of length ≥ 20; and at end of stream a remaining
buffer whose trim is nonempty is flushed as one final cleaned sentence. -/
theorem streaming_sentence_spec :
    (∀ x i, findBoundary x = some i ↔
        (BoundaryDecomp (x.drop i) ∧ ∀ j < i, ¬BoundaryDecomp (x.drop j))) ∧
    (∀ buf i, findBoundary buf = some i →
        20 ≤ (jsTrim (buf.take (i + 1))).length →
        trimForVoice (jsTrim (buf.take (i + 1))) ≠ [] →
        sbStep buf = SbStep.emitted (trimForVoice (jsTrim (buf.take (i + 1))))
          (jsTrimStart (buf.drop (i + 1)))) ∧
    (∀ buf i, findBoundary buf = some i →
        (jsTrim (buf.take (i + 1))).length < 20 →
        sbStep buf = SbStep.tooShort
          (jsTrim (buf.take (i + 1)) ++ ' ' :: jsTrimStart (buf.drop (i + 1)))) ∧
    (∀ tokens buf fuel s, s ∈ (processTokens tokens buf fuel).1 →
        ∃ raw, s = trimForVoice raw ∧ 20 ≤ raw.length ∧ s ≠ []) ∧
    (∀ buf, jsTrim buf ≠ [] → trimForVoice (jsTrim buf) ≠ [] →
        flushEmit buf = [trimForVoice (jsTrim buf)]) ∧
    (∀ buf s, s ∈ flushEmit buf → s = trimForVoice (jsTrim buf) ∧ s ≠ []) := by
  refine ⟨?_, ?_, ?_, ?_, ?_, ?_⟩
  · intro x i
    rw [findBoundary_some_iff]
    constructor
    · rintro ⟨h1, h2⟩
      refine ⟨(boundaryHead_iff _).mp h1, fun j hj hbd => ?_⟩
      have hbt := (boundaryHead_iff _).mpr hbd
      rw [h2 j hj] at hbt
      exact absurd hbt (by simp)
    · rintro ⟨h1, h2⟩
      refine ⟨(boundaryHead_iff _).mpr h1, fun j hj => ?_⟩
      cases hbj : boundaryHead (x.drop j) with
      | false => rfl
      | true => exact absurd ((boundaryHead_iff _).mp hbj) (h2 j hj)
  · intro buf i hfb h20 hne
    unfold sbStep
    rw [hfb]
    simp only
    generalize hs1 : jsTrim (buf.take (i + 1)) = sent at h20 hne ⊢
    generalize hs2 : trimForVoice sent = tv at hne ⊢
    rw [if_pos h20, if_neg (by simpa using hne)]
  · intro buf i hfb h20
    unfold sbStep
    rw [hfb]
    simp only
    generalize hs1 : jsTrim (buf.take (i + 1)) = sent at h20 ⊢
    rw [if_neg (by omega)]
  · intro tokens buf fuel s h
    exact processTokens_emits h
  · intro buf h1 h2
    unfold flushEmit
    rw [if_neg (by simpa using h1), if_neg (by simpa using h2)]
  · intro buf s h
    unfold flushEmit at h
    by_cases h1 : (jsTrim buf).isEmpty
    · rw [if_pos h1] at h
      simp at h
    · rw [if_neg h1] at h
      by_cases h2 : (trimForVoice (jsTrim buf)).isEmpty
      · rw [if_pos h2] at h
        simp at h
      · rw [if_neg h2] at h
        have hs : s = trimForVoice (jsTrim buf) := by simpa using h
        exact ⟨hs, by rw [hs]; simpa using h2⟩

/-- Witness for the amended C5: the step emits a concrete long sentence. -/
theorem streaming_sentence_spec_witness :
    sbStep (("This is a long enough sentence. Next").data) =
      SbStep.emitted (trimForVoice (jsTrim ((("This is a long enough sentence. Next").data).take 31)))
        (jsTrimStart ((("This is a long enough sentence. Next").data).drop 31)) :=
  streaming_sentence_spec.2.1 (("This is a long enough sentence. Next").data) 30
    (by decide) (by decide) (by decide)

theorem stripLit_eq_some {w l r : List Char} : stripLit w l = some r ↔ l = w ++ r := by
  unfold stripLit
  constructor
  · intro h
    by_cases htake : l.take w.length = w
    · rw [if_pos htake] at h
      have hr : r = l.drop w.length := (Option.some.inj h).symm
      have hsplit : l = l.take w.length ++ l.drop w.length :=
        (List.take_append_drop _ _).symm
      rw [htake] at hsplit
      rw [hr]
      exact hsplit
    · rw [if_neg htake] at h
      exact absurd h (by simp)
  · rintro rfl
    rw [if_pos (List.take_left w r)]
    rw [List.drop_left]

theorem optDot_iff {r : List Char} : optDot r = true ↔ (r = [] ∨ r = ['.']) := by
  unfold optDot
  simp

theorem bodyLit_iff (w l : List Char) :
    (match stripLit w l with
     | some r => optDot r
     | none => false) = true ↔ (l = w ∨ l = w ++ ['.']) := by
  cases hs : stripLit w l with
  | none =>
    simp only
    constructor
    · intro h; exact absurd h (by simp)
    · rintro (h | h)
      · rw [h] at hs
        have hx : stripLit w w = some ([] : List Char) := by
          rw [stripLit_eq_some]
          simp
        rw [hx] at hs
        exact absurd hs (by simp)
      · rw [h] at hs
        have hx : stripLit w (w ++ ['.']) = some (['.'] : List Char) := by
          rw [stripLit_eq_some]
        rw [hx] at hs
        exact absurd hs (by simp)
  | some r =>
    have hl : l = w ++ r := stripLit_eq_some.mp hs
    subst hl
    simp only [optDot_iff]
    constructor
    · rintro (rfl | rfl)
      · exact Or.inl (by simp)
      · exact Or.inr rfl
    · rintro (h | h)
      · exact Or.inl (by simpa using h)
      · exact Or.inr (by simpa using h)

theorem body1_iff (l : List Char) :
    body1 l = true ↔ ∃ w ∈ lits1, l = w ∨ l = w ++ ['.'] := by
  unfold body1
  rw [List.any_eq_true]
  constructor
  · rintro ⟨w, hw, hp⟩
    exact ⟨w, hw, (bodyLit_iff w l).mp hp⟩
  · rintro ⟨w, hw, hp⟩
    exact ⟨w, hw, (bodyLit_iff w l).mpr hp⟩

theorem wsPlus_cons (c : Char) (tail : List Char) :
    wsPlus (c :: tail) = if jsWs c then some (tail.dropWhile jsWs) else none := rfl

theorem wsPlus_some {r r2 : List Char} (h : wsPlus r = some r2) :
    ∃ u, u ≠ [] ∧ AllWs u ∧ r = u ++ r2 ∧ r2 = r2.dropWhile jsWs := by
  cases r with
  | nil => exact absurd h (by simp [wsPlus])
  | cons c tail =>
    rw [wsPlus_cons] at h
    by_cases hc : jsWs c = true
    · rw [if_pos (by simp [hc])] at h
      have hr2 : r2 = tail.dropWhile jsWs := (Option.some.inj h).symm
      refine ⟨c :: tail.takeWhile jsWs, by simp, ?_, ?_, ?_⟩
      · intro d hd
        rcases List.mem_cons.mp hd with rfl | hd2
        · exact hc
        · exact List.mem_takeWhile_imp hd2
      · rw [hr2, List.cons_append, List.takeWhile_append_dropWhile]
      · rw [hr2, dropWhile_idem]
    · rw [if_neg (by simp [hc])] at h
      exact absurd h (by simp)

theorem wsPlus_append {u v : List Char} (hne : u ≠ []) (hu : AllWs u)
    {c : Char} {t : List Char} (hv : v = c :: t) (hc : jsWs c = false) :
    wsPlus (u ++ v) = some v := by
  cases u with
  | nil => exact absurd rfl hne
  | cons a u2 =>
    rw [List.cons_append, wsPlus_cons,
      if_pos (by simp [hu a (List.mem_cons_self _ _)])]
    rw [dropWhile_append_allP fun d hd => hu d (List.mem_cons_of_mem _ hd)]
    rw [hv, List.dropWhile_cons, if_neg (by simp [hc])]

theorem lits2b_heads :
    ∀ w ∈ lits2b, w ≠ [] ∧ jsWs (w.headD ' ') = false := by decide

theorem lits2a_heads :
    ∀ w ∈ lits2a, w ≠ [] ∧ jsWs (w.headD ' ') = false := by decide

theorem lits1_heads :
    ∀ w ∈ lits1, w ≠ [] ∧ jsWs (w.headD ' ') = false ∧
      ¬(w.headD ' ' = ',') ∧ ¬(w.headD ' ' = '.') := by decide

theorem headD_cons (w : List Char) (hne : w ≠ []) :
    w = w.headD ' ' :: w.tail := by
  cases w with
  | nil => exact absurd rfl hne
  | cons c t => rfl

theorem body2_iff (l : List Char) :
    body2 l = true ↔
      ∃ w1 ∈ lits2a, ∃ u, ∃ w2 ∈ lits2b,
        u ≠ [] ∧ AllWs u ∧ (l = w1 ++ u ++ w2 ∨ l = w1 ++ u ++ w2 ++ ['.']) := by
  unfold body2
  rw [List.any_eq_true]
  constructor
  · rintro ⟨w1, hw1, hp⟩
    cases hs : stripLit w1 l with
    | none => rw [hs] at hp; exact absurd hp (by simp)
    | some r =>
      rw [hs] at hp
      simp only at hp
      cases hws : wsPlus r with
      | none => rw [hws] at hp; exact absurd hp (by simp)
      | some r2 =>
        rw [hws] at hp
        simp only [List.any_eq_true] at hp
        obtain ⟨w2, hw2, hp2⟩ := hp
        obtain ⟨u, hune, hu, hru, _⟩ := wsPlus_some hws
        have hl : l = w1 ++ r := stripLit_eq_some.mp hs
        rcases (bodyLit_iff w2 r2).mp hp2 with h2 | h2
        · exact ⟨w1, hw1, u, w2, hw2, hune, hu,
            Or.inl (by rw [hl, hru, h2, List.append_assoc])⟩
        · exact ⟨w1, hw1, u, w2, hw2, hune, hu,
            Or.inr (by rw [hl, hru, h2, List.append_assoc, List.append_assoc])⟩
  · rintro ⟨w1, hw1, u, w2, hw2, hune, hu, hcase⟩
    refine ⟨w1, hw1, ?_⟩
    obtain ⟨hw2ne, hw2hd⟩ := lits2b_heads w2 hw2
    have hw2c : w2 = w2.headD ' ' :: w2.tail := headD_cons w2 hw2ne
    rcases hcase with rfl | rfl
    · have hs : stripLit w1 (w1 ++ u ++ w2) = some (u ++ w2) := by
        rw [stripLit_eq_some, List.append_assoc]
      rw [hs]
      simp only
      rw [wsPlus_append hune hu hw2c hw2hd]
      simp only [List.any_eq_true]
      exact ⟨w2, hw2, (bodyLit_iff w2 w2).mpr (Or.inl rfl)⟩
    · have hs : stripLit w1 (w1 ++ u ++ w2 ++ ['.']) = some (u ++ (w2 ++ ['.'])) := by
        rw [stripLit_eq_some, List.append_assoc, List.append_assoc]
      rw [hs]
      simp only
      have hw2dc : w2 ++ ['.'] = w2.headD ' ' :: (w2.tail ++ ['.']) := by
        rw [headD_cons w2 hw2ne]
        rfl
      rw [wsPlus_append hune hu hw2dc hw2hd]
      simp only [List.any_eq_true]
      exact ⟨w2, hw2, (bodyLit_iff w2 (w2 ++ ['.'])).mpr (Or.inr rfl)⟩

theorem lits3_heads :
    ∀ w ∈ lits3, w ≠ [] ∧ jsWs (w.headD ' ') = false := by decide

theorem body3_iff (l : List Char) :
    body3 l = true ↔
      ∃ u, ∃ w ∈ lits3, u ≠ [] ∧ AllWs u ∧
        (l = thatsLit ++ u ++ w ∨ l = thatsLit ++ u ++ w ++ ['.']) := by
  unfold body3
  constructor
  · intro hp
    cases hs : stripLit thatsLit l with
    | none => rw [hs] at hp; exact absurd hp (by simp)
    | some r =>
      rw [hs] at hp
      simp only at hp
      cases hws : wsPlus r with
      | none => rw [hws] at hp; exact absurd hp (by simp)
      | some r2 =>
        rw [hws] at hp
        simp only [List.any_eq_true] at hp
        obtain ⟨w, hw, hp2⟩ := hp
        obtain ⟨u, hune, hu, hru, _⟩ := wsPlus_some hws
        have hl : l = thatsLit ++ r := stripLit_eq_some.mp hs
        rcases (bodyLit_iff w r2).mp hp2 with h2 | h2
        · exact ⟨u, w, hw, hune, hu, Or.inl (by rw [hl, hru, h2, List.append_assoc])⟩
        · exact ⟨u, w, hw, hune, hu,
            Or.inr (by rw [hl, hru, h2, List.append_assoc, List.append_assoc])⟩
  · rintro ⟨u, w, hw, hune, hu, hcase⟩
    obtain ⟨hwne, hwhd⟩ := lits3_heads w hw
    have hwc : w = w.headD ' ' :: w.tail := headD_cons w hwne
    rcases hcase with rfl | rfl
    · have hs : stripLit thatsLit (thatsLit ++ u ++ w) = some (u ++ w) := by
        rw [stripLit_eq_some, List.append_assoc]
      rw [hs]
      simp only
      rw [wsPlus_append hune hu hwc hwhd]
      simp only [List.any_eq_true]
      exact ⟨w, hw, (bodyLit_iff w w).mpr (Or.inl rfl)⟩
    · have hs : stripLit thatsLit (thatsLit ++ u ++ w ++ ['.']) =
          some (u ++ (w ++ ['.'])) := by
        rw [stripLit_eq_some, List.append_assoc, List.append_assoc]
      rw [hs]
      simp only
      have hwdc : w ++ ['.'] = w.headD ' ' :: (w.tail ++ ['.']) := by
        rw [headD_cons w hwne]
        rfl
      rw [wsPlus_append hune hu hwdc hwhd]
      simp only [List.any_eq_true]
      exact ⟨w, hw, (bodyLit_iff w (w ++ ['.'])).mpr (Or.inr rfl)⟩

theorem bodyAny_iff (l : List Char) : bodyAny l = true ↔ BodyMatch l := by
  unfold bodyAny BodyMatch
  rw [Bool.or_eq_true, Bool.or_eq_true, or_assoc]
  exact or_congr (body1_iff l) (or_congr (body2_iff l) (body3_iff l))

theorem lits2a_heads2 :
    ∀ w ∈ lits2a, w ≠ [] ∧ jsWs (w.headD ' ') = false ∧
      ¬(w.headD ' ' = ',') ∧ ¬(w.headD ' ' = '.') := by decide

theorem thats_head :
    thatsLit ≠ [] ∧ jsWs (thatsLit.headD ' ') = false ∧
      ¬(thatsLit.headD ' ' = ',') ∧ ¬(thatsLit.headD ' ' = '.') := by decide

theorem head_of_append {w : List Char} (rest : List Char) (hne : w ≠ []) :
    w ++ rest = w.headD ' ' :: (w.tail ++ rest) := by
  cases w with
  | nil => exact absurd rfl hne
  | cons c t => rfl

theorem bodyMatch_head {r : List Char} (h : BodyMatch r) :
    ∃ c t2, r = c :: t2 ∧ jsWs c = false ∧ ¬(c = ',') ∧ ¬(c = '.') := by
  rcases h with ⟨w, hw, hcase⟩ | ⟨w1, hw1, u, w2, hw2, hune, hu, hcase⟩ |
    ⟨u, w, hw, hune, hu, hcase⟩
  · obtain ⟨hne, hws, hc1, hc2⟩ := lits1_heads w hw
    rcases hcase with h | h
    · exact ⟨w.headD ' ', w.tail, by rw [h, ← headD_cons w hne], hws, hc1, hc2⟩
    · exact ⟨w.headD ' ', w.tail ++ ['.'], by rw [h, head_of_append ['.'] hne],
        hws, hc1, hc2⟩
  · obtain ⟨hne, hws, hc1, hc2⟩ := lits2a_heads2 w1 hw1
    rcases hcase with h | h
    · refine ⟨w1.headD ' ', w1.tail ++ (u ++ w2), ?_, hws, hc1, hc2⟩
      rw [h, List.append_assoc, head_of_append (u ++ w2) hne]
    · refine ⟨w1.headD ' ', w1.tail ++ (u ++ (w2 ++ ['.'])), ?_, hws, hc1, hc2⟩
      rw [h, List.append_assoc, List.append_assoc, head_of_append (u ++ (w2 ++ ['.'])) hne]
  · obtain ⟨hne, hws, hc1, hc2⟩ := thats_head
    rcases hcase with h | h
    · refine ⟨thatsLit.headD ' ', thatsLit.tail ++ (u ++ w), ?_, hws, hc1, hc2⟩
      rw [h, List.append_assoc, head_of_append (u ++ w) hne]
    · refine ⟨thatsLit.headD ' ', thatsLit.tail ++ (u ++ (w ++ ['.'])), ?_, hws, hc1, hc2⟩
      rw [h, List.append_assoc, List.append_assoc, head_of_append (u ++ (w ++ ['.'])) hne]

theorem stripWakeLead_forward {l r : List Char} (h : stripWakeLead l = some r)
    (hbody : BodyMatch r) :
    ∃ u p v, AllWs u ∧ (p = [] ∨ p = [','] ∨ p = ['.']) ∧ AllWs v ∧
      l = jarvisLit ++ u ++ p ++ v ++ r := by
  unfold stripWakeLead at h
  cases hs : stripLit jarvisLit l with
  | none => rw [hs] at h; exact absurd h (by simp)
  | some r0 =>
    rw [hs] at h
    simp only at h
    have hl : l = jarvisLit ++ r0 := stripLit_eq_some.mp hs
    have hsplit : r0 = r0.takeWhile jsWs ++ r0.dropWhile jsWs :=
      (List.takeWhile_append_dropWhile _ _).symm
    have huws : AllWs (r0.takeWhile jsWs) := fun d hd => List.mem_takeWhile_imp hd
    cases hr1c : r0.dropWhile jsWs with
    | nil =>
      rw [hr1c] at h
      simp only at h
      have hr : r = [] := by simpa using (Option.some.inj h).symm
      obtain ⟨c, t2, hrc, _, _, _⟩ := bodyMatch_head hbody
      rw [hr] at hrc
      exact absurd hrc (by simp)
    | cons c t =>
      rw [hr1c] at h
      simp only at h
      by_cases hcp : (c = ',' || c = '.') = true
      · rw [if_pos hcp] at h
        have hr : r = t.dropWhile jsWs := (Option.some.inj h).symm
        refine ⟨r0.takeWhile jsWs, [c], t.takeWhile jsWs, huws, ?_, ?_, ?_⟩
        · rcases Bool.or_eq_true_iff.mp hcp with hc | hc
          · exact Or.inr (Or.inl (by simp [decide_eq_true_eq] at hc; rw [hc]))
          · exact Or.inr (Or.inr (by simp [decide_eq_true_eq] at hc; rw [hc]))
        · exact fun d hd => List.mem_takeWhile_imp hd
        · rw [hl]
          nth_rewrite 1 [hsplit]
          rw [hr1c, hr]
          nth_rewrite 1 [← List.takeWhile_append_dropWhile jsWs t]
          simp [List.append_assoc]
      · rw [if_neg hcp] at h
        have hr : r = c :: t := by
          have h2 := (Option.some.inj h).symm
          rwa [← hr1c, dropWhile_idem, hr1c] at h2
        refine ⟨r0.takeWhile jsWs, [], [], huws, Or.inl rfl, by intro d hd; simp at hd, ?_⟩
        rw [hl]
        nth_rewrite 1 [hsplit]
        rw [hr1c, ← hr]
        simp

theorem stripWakeLead_backward {u p v r : List Char} (hu : AllWs u)
    (hp : p = [] ∨ p = [','] ∨ p = ['.']) (hv : AllWs v) (hbody : BodyMatch r) :
    stripWakeLead (jarvisLit ++ u ++ p ++ v ++ r) = some r := by
  obtain ⟨c, t2, hr, hcws, hcc, hcd⟩ := bodyMatch_head hbody
  have hdr : r.dropWhile jsWs = r := by
    rw [hr, List.dropWhile_cons, if_neg (by simp [hcws])]
  have hvr : (v ++ r).dropWhile jsWs = r := by
    rw [dropWhile_append_allP hv, hdr]
  unfold stripWakeLead
  have hs : stripLit jarvisLit (jarvisLit ++ u ++ p ++ v ++ r) =
      some (u ++ (p ++ (v ++ r))) := by
    rw [stripLit_eq_some]
    simp [List.append_assoc]
  rw [hs]
  simp only
  rcases hp with rfl | rfl | rfl
  · have h1 : (u ++ ([] ++ (v ++ r))).dropWhile jsWs = r := by
      rw [dropWhile_append_allP hu, List.nil_append, hvr]
    rw [h1, hr]
    simp only
    rw [if_neg (by simp [hcc, hcd])]
    rw [← hr, hdr, hr]
  · have h1 : (u ++ ([','] ++ (v ++ r))).dropWhile jsWs = ',' :: (v ++ r) := by
      rw [dropWhile_append_allP hu, List.singleton_append, List.dropWhile_cons,
        if_neg (by decide)]
    rw [h1]
    simp only
    rw [if_pos (by decide)]
    rw [hvr]
  · have h1 : (u ++ (['.'] ++ (v ++ r))).dropWhile jsWs = '.' :: (v ++ r) := by
      rw [dropWhile_append_allP hu, List.singleton_append, List.dropWhile_cons,
        if_neg (by decide)]
    rw [h1]
    simp only
    rw [if_pos (by decide)]
    rw [hvr]

theorem interruptMatch_iff (l : List Char) :
    interruptMatch l = true ↔ InterruptDeclarative l := by
  unfold interruptMatch InterruptDeclarative
  rw [Bool.or_eq_true, bodyAny_iff]
  constructor
  · rintro (hb | hmatch)
    · exact Or.inl hb
    · cases hw : stripWakeLead l with
      | none => rw [hw] at hmatch; exact absurd hmatch (by simp)
      | some r =>
        rw [hw] at hmatch
        simp only at hmatch
        have hbody := (bodyAny_iff r).mp hmatch
        obtain ⟨u, p, v, hu, hp, hv, hl⟩ := stripWakeLead_forward hw hbody
        exact Or.inr ⟨u, p, v, r, hu, hp, hv, hbody, hl⟩
  · rintro (hb | ⟨u, p, v, r, hu, hp, hv, hbody, rfl⟩)
    · exact Or.inl hb
    · right
      rw [stripWakeLead_backward hu hp hv hbody]
      simp only
      exact (bodyAny_iff r).mpr hbody

theorem cwAux_false_le_true (l : List Char) :
    countWordsAux false l ≤ countWordsAux true l := by
  cases l with
  | nil => simp [countWordsAux]
  | cons c t =>
    unfold countWordsAux
    by_cases hc : jsWs c = true
    · simp [hc]
    · simp [hc]

theorem cwAux_cons (s : Bool) (c : Char) (r : List Char) :
    countWordsAux s (c :: r) =
      if jsWs c then countWordsAux true r
      else (if s then 1 else 0) + countWordsAux false r := rfl

theorem cwAux_append (a : List Char) : ∀ (s : Bool) (b : List Char),
    countWordsAux s (a ++ b) ≤ countWordsAux s a + countWordsAux true b := by
  induction a with
  | nil =>
    intro s b
    cases s with
    | false => simpa [countWordsAux] using cwAux_false_le_true b
    | true => simp [countWordsAux]
  | cons c t ih =>
    intro s b
    rw [List.cons_append, cwAux_cons s c (t ++ b), cwAux_cons s c t]
    by_cases hc : jsWs c = true
    · rw [if_pos hc, if_pos hc]
      exact ih true b
    · rw [if_neg hc, if_neg hc]
      have := ih false b
      omega

theorem countWords_append (a b : List Char) :
    countWords (a ++ b) ≤ countWords a + countWords b := cwAux_append a true b

theorem cwAux_allWs : ∀ (u : List Char), AllWs u → ∀ s, countWordsAux s u = 0 := by
  intro u
  induction u with
  | nil => intro _ s; rfl
  | cons c t ih =>
    intro hu s
    unfold countWordsAux
    rw [if_pos (hu c (List.mem_cons_self _ _))]
    exact ih (fun d hd => hu d (List.mem_cons_of_mem _ hd)) true

theorem lits1_counts : ∀ w ∈ lits1, countWords w ≤ 2 ∧ countWords (w ++ ['.']) ≤ 2 := by
  decide

theorem lits2a_counts : ∀ w ∈ lits2a, countWords w ≤ 1 := by decide

theorem lits2b_counts :
    ∀ w ∈ lits2b, countWords w ≤ 1 ∧ countWords (w ++ ['.']) ≤ 1 := by decide

theorem lits3_counts :
    ∀ w ∈ lits3, countWords w ≤ 1 ∧ countWords (w ++ ['.']) ≤ 1 := by decide

theorem bodyMatch_count {r : List Char} (h : BodyMatch r) : countWords r ≤ 2 := by
  rcases h with ⟨w, hw, hcase⟩ | ⟨w1, hw1, u, w2, hw2, hune, hu, hcase⟩ |
    ⟨u, w, hw, hune, hu, hcase⟩
  · obtain ⟨h1, h2⟩ := lits1_counts w hw
    rcases hcase with h | h <;> rw [h] <;> assumption
  · have hw1c := lits2a_counts w1 hw1
    obtain ⟨hw2c, hw2cd⟩ := lits2b_counts w2 hw2
    have huc : countWords u = 0 := cwAux_allWs u hu true
    have c4 := countWords_append w1 u
    rcases hcase with h | h
    · rw [h]
      have c1 := countWords_append (w1 ++ u) w2
      omega
    · rw [h, List.append_assoc (w1 ++ u) w2 ['.']]
      have c1 := countWords_append (w1 ++ u) (w2 ++ ['.'])
      omega
  · have htc : countWords thatsLit ≤ 1 := by decide
    obtain ⟨hwc, hwcd⟩ := lits3_counts w hw
    have huc : countWords u = 0 := cwAux_allWs u hu true
    have c4 := countWords_append thatsLit u
    rcases hcase with h | h
    · rw [h]
      have c1 := countWords_append (thatsLit ++ u) w
      omega
    · rw [h, List.append_assoc (thatsLit ++ u) w ['.']]
      have c1 := countWords_append (thatsLit ++ u) (w ++ ['.'])
      omega

/-- **C2.** `isInterruptCommand` returns true exactly when the transcript,
after trimming whitespace and trailing punctuation and lower-casing (the
`i` flag), matches one of the three stop patterns *as a whole string* —
one of the stop alternatives, a `stop`/`cancel` plus object word, or
`that's` plus agreement word, each with an optional trailing period and
an optional leading `jarvis` wake group; moreover any matched transcript
has at most four whitespace-separated words, so a longer sentence merely
containing `stop` as a substring is never matched. -/
theorem isInterruptCommand_spec (t : String) :
    (isInterruptCommand t = true ↔
      InterruptDeclarative (lowerChars (cleanTranscript t.data))) ∧
    (isInterruptCommand t = true →
      countWords (lowerChars (cleanTranscript t.data)) ≤ 4) := by
  have hiff := interruptMatch_iff (lowerChars (cleanTranscript t.data))
  refine ⟨hiff, fun h => ?_⟩
  rcases hiff.mp h with hb | ⟨u, p, v, r, hu, hp, hv, hbody, hl⟩
  · have := bodyMatch_count hb
    omega
  · rw [hl]
    have c1 := countWords_append (jarvisLit ++ u ++ p ++ v) r
    have c2 := countWords_append (jarvisLit ++ u ++ p) v
    have c3 := countWords_append (jarvisLit ++ u) p
    have c4 := countWords_append jarvisLit u
    have huc : countWords u = 0 := cwAux_allWs u hu true
    have hvc : countWords v = 0 := cwAux_allWs v hv true
    have hrc := bodyMatch_count hbody
    have hjc : countWords jarvisLit = 1 := by decide
    have hpc : countWords p ≤ 1 := by
      rcases hp with rfl | rfl | rfl <;> decide
    omega

/-- Witness for C2: `jarvis, stop` is recognized, and its cleaned form has
at most four words. -/
theorem isInterruptCommand_spec_witness :
    isInterruptCommand ("jarvis, stop") = true ∧
    countWords (lowerChars (cleanTranscript (("jarvis, stop").data))) ≤ 4 :=
  ⟨by decide, (isInterruptCommand_spec ("jarvis, stop")).2 (by decide)⟩

end ClawVoice
